import Mathlib

/-! NSGA-III generational engine: dominance, front classification, variation operators.

A shallow embedding of `include/ensmallen_bits/nsga3/nsga3_impl.hpp`.

Conventions of the embedding:

* real-valued elements (`ElemType`) are rationals; `std::pow` / `arma::pow`, which do not
  stay inside the rationals, are taken as a parameter `pow`;
* `std::vector<T>` is `List T`; a read `v[i]` is `List.getD` with the value-initialised
  default, a write `v[i] = x` is `List.set`;
* `size_t` counters are naturals, reduced modulo `2 ^ 64` where the source can wrap;
* `std::map<size_t, T>` accessed through `operator[]` is a total function `Nat → T`;
* the process-wide random generator is a pair of streams read at an explicit position.
-/

namespace NSGA3

/-! ## Dominance -/

/-- Reading of `calculatedObjectives[p](i)`. -/
def objAt (calculatedObjectives : List (List ℚ)) (p i : Nat) : ℚ :=
  (calculatedObjectives.getD p []).getD i 0

/-- One pass of the loop body of `Dominates` over objective `i`; the state is
`(allBetterOrEqual, atleastOneBetter)`. -/
def dominatesStep (calculatedObjectives : List (List ℚ)) (candidateP candidateQ : Nat)
    (flags : Bool × Bool) (i : Nat) : Bool × Bool :=
  if objAt calculatedObjectives candidateP i > objAt calculatedObjectives candidateQ i then
    (false, flags.2)
  else if objAt calculatedObjectives candidateP i < objAt calculatedObjectives candidateQ i then
    (flags.1, true)
  else flags

/-- `AGEMOEA::Dominates`: does candidate `P` Pareto-dominate candidate `Q`? -/
def Dominates (calculatedObjectives : List (List ℚ)) (candidateP candidateQ : Nat) : Bool :=
  let n_objectives := (calculatedObjectives.getD 0 []).length
  let flags := (List.range n_objectives).foldl
    (dominatesStep calculatedObjectives candidateP candidateQ) (true, false)
  flags.1 && flags.2

/-! ## Fast non-dominated sort -/

/-- Number of values of a `size_t` (64-bit). -/
def SIZE_MOD : Nat := 2 ^ 64

/-- Assignment `m[k] = v` on a `std::map` read through `operator[]`. -/
def mapSet {β : Type} (m : Nat → β) (k : Nat) (v : β) : Nat → β :=
  fun j => if j = k then v else m j

/-- `std::set<size_t>::insert`: the set is kept as an increasing list without repeats. -/
def setInsert (q : Nat) (s : List Nat) : List Nat :=
  if q ∈ s then s else s.orderedInsert (· ≤ ·) q

/-- The variables of `FastNonDominatedSort`: the two out-parameters and the two local maps. -/
structure SortState where
  fronts : List (List Nat)
  ranks : List Nat
  dominationCount : Nat → Nat
  dominated : Nat → List Nat

/-- Body of the inner loop `for q` of the first phase, for a fixed `p`. -/
def compareStep (calculatedObjectives : List (List ℚ)) (p : Nat) (st : SortState) (q : Nat) :
    SortState :=
  if Dominates calculatedObjectives p q then
    { st with dominated := mapSet st.dominated p (setInsert q (st.dominated p)) }
  else if Dominates calculatedObjectives q p then
    let c := (st.dominationCount p + 1) % SIZE_MOD
    { st with dominationCount := mapSet st.dominationCount p c }
  else st

/-- Body of the outer loop `for p` of the first phase. -/
def initStep (populationSize : Nat) (calculatedObjectives : List (List ℚ)) (st : SortState)
    (p : Nat) : SortState :=
  let st1 : SortState :=
    { st with dominated := mapSet st.dominated p [],
              dominationCount := mapSet st.dominationCount p 0 }
  let st2 := (List.range populationSize).foldl (compareStep calculatedObjectives p) st1
  if st2.dominationCount p = 0 then
    { st2 with ranks := st2.ranks.set p 0,
               fronts := st2.fronts.set 0 (st2.fronts.getD 0 [] ++ [p]) }
  else st2

/-- First phase of `FastNonDominatedSort`: `fronts` is reset to one empty front, then every
`p < populationSize` is compared with every `q < populationSize`. -/
def initSort (populationSize : Nat) (ranks : List Nat) (calculatedObjectives : List (List ℚ)) :
    SortState :=
  (List.range populationSize).foldl (initStep populationSize calculatedObjectives)
    { fronts := [[]], ranks := ranks, dominationCount := fun _ => 0, dominated := fun _ => [] }

/-- The decrement `--` of a `size_t`: zero wraps around to `SIZE_MOD - 1`. On every value
below `SIZE_MOD` this is `(c + (SIZE_MOD - 1)) % SIZE_MOD`. -/
def sizeDec (c : Nat) : Nat :=
  if c = 0 then SIZE_MOD - 1 else c - 1

/-- Body of the loop `for q : dominated[p]` of the second phase; the second component is
`nextFront`. -/
def relaxStep (i : Nat) (acc : SortState × List Nat) (q : Nat) : SortState × List Nat :=
  let c := sizeDec (acc.1.dominationCount q)
  let st1 : SortState := { acc.1 with dominationCount := mapSet acc.1.dominationCount q c }
  if c = 0 then ({ st1 with ranks := st1.ranks.set q (i + 1) }, acc.2 ++ [q])
  else (st1, acc.2)

/-- The loop `for p : fronts[i]` of the second phase, started with an empty `nextFront`. -/
def processFront (i : Nat) (st : SortState) : SortState × List Nat :=
  (st.fronts.getD i []).foldl
    (fun acc p => (acc.1.dominated p).foldl (relaxStep i) acc) (st, [])

/-- The loop `while (!fronts[i].empty())`. Each unit of fuel pays for one evaluation of the
loop condition; `none` means the fuel ran out before the condition became false. -/
def sortLoop : Nat → Nat → SortState → Option SortState
  | 0, _, _ => none
  | fuel + 1, i, st =>
    if (st.fronts.getD i []).isEmpty then some st
    else
      let r := processFront i st
      sortLoop fuel (i + 1) { r.1 with fronts := r.1.fronts ++ [r.2] }

/-- `AGEMOEA::FastNonDominatedSort`, returning the out-parameters `(fronts, ranks)`. -/
def FastNonDominatedSort (fuel populationSize : Nat) (ranks : List Nat)
    (calculatedObjectives : List (List ℚ)) : Option (List (List Nat) × List Nat) :=
  (sortLoop fuel 0 (initSort populationSize ranks calculatedObjectives)).map
    fun st => (st.fronts.dropLast, st.ranks)

/-! ## Driver: configuration check -/

/-- The first statement of `NSGA3::Optimize`: the guard on `populationSize`, which throws
`std::logic_error` before anything else is done. -/
def Optimize_checkPopulationSize (populationSize : Nat) : Except String Unit :=
  if populationSize < 4 ∧ populationSize % 4 ≠ 0 then
    Except.error
      "NSGA3::Optimize(): population size should be at least 4, and, a multiple of 4!"
  else Except.ok ()

/-! ## Objective evaluation -/

/-- A candidate (`MatType` with one column): its decision variables. -/
abbrev Candidate (n : Nat) := Fin n → ℚ

/-- The write `calculatedObjectives[i](I) = v`. -/
def setObjective (calculatedObjectives : List (List ℚ)) (i I : Nat) (v : ℚ) : List (List ℚ) :=
  calculatedObjectives.set i ((calculatedObjectives.getD i []).set I v)

/-- `AGEMOEA::EvaluateObjectives<I>`: the template recursion over the objective index `I`.
The second list holds the objectives `I, I + 1, ...` of the tuple; the empty list is the
overload `I == sizeof...(ArbitraryFunctionType)`. -/
def EvaluateObjectivesFrom {n : Nat} (populationSize : Nat) (population : List (Candidate n)) :
    Nat → List (Candidate n → ℚ) → List (List ℚ) → List (List ℚ)
  | _, [], calculatedObjectives => calculatedObjectives
  | I, f :: rest, calculatedObjectives =>
    (List.range populationSize).foldl
      (fun acc i =>
        EvaluateObjectivesFrom populationSize population (I + 1) rest
          (setObjective acc i I (f (population.getD i (fun _ => 0)))))
      calculatedObjectives

/-- `AGEMOEA::EvaluateObjectives(population, objectives, calculatedObjectives)`. -/
def EvaluateObjectives {n : Nat} (populationSize : Nat) (population : List (Candidate n))
    (objectives : List (Candidate n → ℚ)) (calculatedObjectives : List (List ℚ)) :
    List (List ℚ) :=
  EvaluateObjectivesFrom populationSize population 0 objectives calculatedObjectives

/-! ## Variation operators -/

/-- Outcomes of the process-wide random generator: `randu k` is the value of the `k`-th draw
when it is an `arma::randu`, `randi k` when it is an `arma::randi`. -/
structure Draws where
  randu : Nat → ℚ
  randi : Nat → Nat

/-- An entry of an `arma::umat` obtained from a comparison, used as a factor. -/
def maskVal (b : Bool) : ℚ := if b then 1 else 0

/-- Elementwise `arma::min(arma::max(x, lowerBound), upperBound)`. -/
def clampBounds {n : Nat} (x lowerBound upperBound : Candidate n) : Candidate n :=
  fun i => min (max (x i) (lowerBound i)) (upperBound i)

/-- Lines 343–365 of `Crossover`: the two clamped blends `(c1, c2)`, from the first fill `us`
of uniform draws. -/
def crossoverBlend {n : Nat} (pow : ℚ → ℚ → ℚ) (eta : ℚ) (us : Candidate n)
    (parentA parentB lowerBound upperBound : Candidate n) : Candidate n × Candidate n :=
  let current_min : Candidate n := fun i => min (parentA i) (parentB i)
  let current_max : Candidate n := fun i => max (parentA i) (parentB i)
  let current_diff : Candidate n := fun i =>
    let val := current_max i - current_min i
    if val < 1e-10 then 1e-10 else val
  let beta1 : Candidate n := fun i => 1 + 2 * (current_min i - lowerBound i) / current_diff i
  let beta2 : Candidate n := fun i => 1 + 2 * (upperBound i - current_max i) / current_diff i
  let alpha1 : Candidate n := fun i => 2 - pow (beta1 i) (-(eta + 1))
  let alpha2 : Candidate n := fun i => 2 - pow (beta2 i) (-(eta + 1))
  let mask1 : Fin n → Bool := fun i => decide (us i > 1 / alpha1 i)
  let betaq1 : Candidate n := fun i => pow (us i * alpha1 i) (1 / (eta + 1))
  let betaq1 : Candidate n := fun i =>
    betaq1 i * maskVal (mask1 i != true) +
      pow (1 / (2 - us i * alpha1 i)) (1 / (eta + 1)) * maskVal (mask1 i)
  let mask2 : Fin n → Bool := fun i => decide (us i > 1 / alpha2 i)
  let betaq2 : Candidate n := fun i => pow (us i * alpha2 i) (1 / (eta + 1))
  let betaq2 : Candidate n := fun i =>
    betaq2 i * maskVal (mask1 i != true) +
      pow (1 / (2 - us i * alpha2 i)) (1 / (eta + 1)) * maskVal (mask2 i)
  let c1 : Candidate n := fun i =>
    (1 / 2) * ((current_min i + current_max i) - betaq1 i * current_diff i)
  let c2 : Candidate n := fun i =>
    (1 / 2) * ((current_min i + current_max i) + betaq2 i * current_diff i)
  (clampBounds c1 lowerBound upperBound, clampBounds c2 lowerBound upperBound)

/-- Lines 368–375 of `Crossover`: one entry of a child. `parent` is the child's own parent,
`first` the blend added when `us3 <= 0.5`, `second` the blend added when `us3 > 0.5`; each
addition tests the child as it stands at that point. -/
def crossoverInherit (parent first second us2 us3 : ℚ) : ℚ :=
  let child := parent * maskVal (decide (us2 ≤ 1 / 2))
  let child := child + first * (maskVal (decide (us3 ≤ 1 / 2)) * maskVal (decide (child = 0)))
  child + second * (maskVal (decide (us3 > 1 / 2)) * maskVal (decide (child = 0)))

/-- `AGEMOEA::Crossover`, returning `(childA, childB)` and the position of the generator
after the call. `pos` is the position of the generator on entry. -/
def Crossover {n : Nat} (pow : ℚ → ℚ → ℚ) (eta : ℚ) (g : Draws) (pos : Nat)
    (parentA parentB lowerBound upperBound : Candidate n) :
    Candidate n × Candidate n × Nat :=
  if (List.finRange n).countP (fun i => decide (parentA i - parentB i < 1e-14)) ≠ 0 then
    (parentA, parentB, pos)
  else
    let us : Candidate n := fun i => g.randu (pos + i)
    let c := crossoverBlend pow eta us parentA parentB lowerBound upperBound
    let us2 : Candidate n := fun i => g.randu (pos + n + i)
    let us3 : Candidate n := fun i => g.randu (pos + 2 * n + i)
    (fun i => crossoverInherit (parentA i) (c.1 i) (c.2 i) (us2 i) (us3 i),
     fun i => crossoverInherit (parentB i) (c.2 i) (c.1 i) (us2 i) (us3 i),
     pos + 3 * n)

/-- Body of the loop `for geneIdx` of `Mutate`; the state is the candidate and the position
of the generator. -/
def mutateGene {n : Nat} (pow : ℚ → ℚ → ℚ) (distributionIndex mutationRate : ℚ) (g : Draws)
    (lowerBound upperBound : Candidate n) (st : Candidate n × Nat) (geneIdx : Fin n) :
    Candidate n × Nat :=
  if g.randu st.2 > mutationRate then (st.1, st.2 + 1)
  else
    let geneRange := upperBound geneIdx - lowerBound geneIdx
    let lowerDelta := (st.1 geneIdx - lowerBound geneIdx) / geneRange
    let upperDelta := (upperBound geneIdx - st.1 geneIdx) / geneRange
    let mutationPower := 1 / (distributionIndex + 1)
    let rand := g.randu (st.2 + 1)
    let perturbationFactor :=
      if rand < 1 / 2 then
        let value := 2 * rand + (1 - 2 * rand) * pow upperDelta (distributionIndex + 1)
        pow value mutationPower - 1
      else
        let value := 2 * (1 - rand) + 2 * (rand - 1 / 2) * pow lowerDelta (distributionIndex + 1)
        1 - pow value mutationPower
    (Function.update st.1 geneIdx (st.1 geneIdx + perturbationFactor * geneRange), st.2 + 2)

/-- `AGEMOEA::Mutate`, returning the candidate and the position of the generator. -/
def Mutate {n : Nat} (pow : ℚ → ℚ → ℚ) (distributionIndex : ℚ) (g : Draws) (pos : Nat)
    (candidate : Candidate n) (mutationRate : ℚ) (lowerBound upperBound : Candidate n) :
    Candidate n × Nat :=
  let r := (List.finRange n).foldl
    (mutateGene pow distributionIndex mutationRate g lowerBound upperBound) (candidate, pos)
  (clampBounds r.1 lowerBound upperBound, r.2)

/-- The data members of the optimizer read by the variation operators. -/
structure Params where
  populationSize : Nat
  numVariables : Nat
  crossoverProb : ℚ
  eta : ℚ
  distributionIndex : ℚ

/-- The two parent indices of one round of `BinaryTournamentSelection`, after the collision
handling, from the two raw draws. -/
def pickParents (populationSize rawA rawB : Nat) : Nat × Nat :=
  let indexA := rawA
  let indexB := rawB
  if indexA = indexB then
    if indexB < sizeDec populationSize then (indexA, (indexB + 1) % SIZE_MOD)
    else (indexA, sizeDec indexB)
  else (indexA, indexB)

/-- The loop `while (children.size() < population.size())` of `BinaryTournamentSelection`. -/
def tournamentLoop {n : Nat} (pow : ℚ → ℚ → ℚ) (cfg : Params) (g : Draws)
    (population : List (Candidate n)) (lowerBound upperBound : Candidate n)
    (children : List (Candidate n)) (pos : Nat) : List (Candidate n) × Nat :=
  if children.length < population.length then
    let idx := pickParents cfg.populationSize (g.randi pos) (g.randi (pos + 1))
    let parentA := population.getD idx.1 (fun _ => 0)
    let parentB := population.getD idx.2 (fun _ => 0)
    let crossed : Candidate n × Candidate n × Nat :=
      if g.randu (pos + 2) ≤ cfg.crossoverProb then
        Crossover pow cfg.eta g (pos + 3) parentA parentB lowerBound upperBound
      else (parentA, parentB, pos + 3)
    let mutatedA := Mutate pow cfg.distributionIndex g crossed.2.2 crossed.1
      (1 / (cfg.numVariables : ℚ)) lowerBound upperBound
    let mutatedB := Mutate pow cfg.distributionIndex g mutatedA.2 crossed.2.1
      (1 / (cfg.numVariables : ℚ)) lowerBound upperBound
    tournamentLoop pow cfg g population lowerBound upperBound
      (children ++ [mutatedA.1, mutatedB.1]) mutatedB.2
  else (children, pos)
termination_by population.length - children.length
decreasing_by
  simp only [List.length_append, List.length_cons, List.length_nil]
  omega

/-- `AGEMOEA::BinaryTournamentSelection`, returning the enlarged population and the position
of the generator. -/
def BinaryTournamentSelection {n : Nat} (pow : ℚ → ℚ → ℚ) (cfg : Params) (g : Draws)
    (pos : Nat) (population : List (Candidate n)) (lowerBound upperBound : Candidate n) :
    List (Candidate n) × Nat :=
  let r := tournamentLoop pow cfg g population lowerBound upperBound [] pos
  (population ++ r.1, r.2)

/-! ## Normalization -/

/-- What `arma::solve` hands back, as far as `NormalizeFront` tells the cases apart. -/
inductive SolveResult where
  /-- No solution found: `arma::solve` throws `std::runtime_error`. -/
  | threw
  /-- A solution for which `has_inf()` or `has_nan()` holds. -/
  | nonFinite
  /-- A solution whose entries are all finite. -/
  | weights (w : List ℚ)

/-- The two ways `NormalizeFront` leaves the rationals. -/
inductive NormalizeError where
  /-- The exception of `arma::solve` propagates. -/
  | solveThrew
  /-- A weight is zero, so `1. / hyperplane` has an infinite entry. -/
  | infiniteEntry

/-- The matrix `vectorizedObjectives` (lines 425–429), kept as the list of its columns:
column `i` is `calculatedObjectives[front[i]]`. -/
def vectorizeObjectives (numObjectives : Nat) (calculatedObjectives : List (List ℚ))
    (front : List Nat) : List (List ℚ) :=
  front.map (fun p => (List.range numObjectives).map (objAt calculatedObjectives p))

/-- `arma::max(vectorizedObjectives, 1)`: for each row, the maximum over the columns. A matrix
without columns gives an empty result. -/
def rowMaxima (numObjectives : Nat) (columns : List (List ℚ)) : List ℚ :=
  match columns with
  | [] => []
  | c :: rest =>
    (List.range numObjectives).map
      (fun k => rest.foldl (fun m col => max m (col.getD k 0)) (c.getD k 0))

/-- `normalization + (normalization == 0)`: zero entries become 1. -/
def replaceZeros (normalization : List ℚ) : List ℚ :=
  normalization.map (fun x => x + (if x = 0 then 1 else 0))

/-- `AGEMOEA::NormalizeFront`, returning the out-parameter `normalization`. `solve` stands for
`arma::solve`, applied to `vectorizedObjectives.t()` (given as its list of rows) and the
vector of ones. The test of line 453 repeats the test of line 446 on `hyperplane` and is
false whenever it is reached. -/
def NormalizeFront (solve : List (List ℚ) → List ℚ → SolveResult) (numObjectives : Nat)
    (calculatedObjectives : List (List ℚ)) (front : List Nat) (extreme : List Nat) :
    Except NormalizeError (List ℚ) :=
  let vectorizedObjectives := vectorizeObjectives numObjectives calculatedObjectives front
  if front.length < numObjectives then
    Except.ok (rowMaxima numObjectives vectorizedObjectives)
  else if extreme.length ≠ extreme.dedup.length then
    Except.ok (rowMaxima numObjectives vectorizedObjectives)
  else
    let one := List.replicate front.length (1 : ℚ)
    match solve vectorizedObjectives one with
    | SolveResult.threw => Except.error NormalizeError.solveThrew
    | SolveResult.nonFinite =>
      Except.ok (replaceZeros (rowMaxima numObjectives vectorizedObjectives))
    | SolveResult.weights hyperplane =>
      if hyperplane.countP (fun h => decide (h < 0)) > 0 then
        Except.ok (replaceZeros (rowMaxima numObjectives vectorizedObjectives))
      else if hyperplane.any (fun h => decide (h = 0)) then
        Except.error NormalizeError.infiniteEntry
      else Except.ok (replaceZeros (hyperplane.map (fun h => 1 / h)))

/-! ## Extreme points -/

/-- `arma::dot`. -/
def dot {m : Nat} (a b : Fin m → ℚ) : ℚ := ∑ k, a k * b k

/-- `NSGA3::PointToLineDistance`, returning the out-parameter `distances`. -/
def PointToLineDistance {m : Nat} (calculatedObjectives : List (List ℚ)) (front : List Nat)
    (pointA pointB : Fin m → ℚ) : List ℚ :=
  let ba : Fin m → ℚ := fun k => pointB k - pointA k
  front.map (fun ind =>
    let pa : Fin m → ℚ := fun k => objAt calculatedObjectives ind k - pointA k
    let t := dot pa ba / dot ba ba
    ∑ k, (pa k - t * ba k) ^ 2)

/-- The scan of `index_min()`: `i` is the position of the head of the list, `best_val` and
`best_index` the smallest value met so far and its position. -/
def indexMinFrom : List (WithTop ℚ) → Nat → WithTop ℚ → Nat → Nat
  | [], _, _, best_index => best_index
  | x :: xs, i, best_val, best_index =>
    if x < best_val then indexMinFrom xs (i + 1) x i
    else indexMinFrom xs (i + 1) best_val best_index

/-- `index_min()`: the scan starts from the value `+inf` and the position 0, and moves on a
strictly smaller entry only. -/
def indexMin (dists : List (WithTop ℚ)) : Nat :=
  indexMinFrom dists 0 ⊤ 0

/-- Column `i` of `W = eye(numObjectives, numObjectives) + 1e-6`. -/
def probeDirection (numObjectives i : Nat) : Fin numObjectives → ℚ :=
  fun k => (if k.val = i then 1 else 0) + 1e-6

/-- The distances of axis `i` after the loop `for j` of line 483 has put `+inf` at the
selected positions. -/
def maskedDistances (numObjectives : Nat) (calculatedObjectives : List (List ℚ))
    (front : List Nat) (selected : List Bool) (i : Nat) : List (WithTop ℚ) :=
  List.zipWith (fun (d : ℚ) (s : Bool) => if s then (⊤ : WithTop ℚ) else (d : WithTop ℚ))
    (PointToLineDistance calculatedObjectives front (fun _ => 0)
      (probeDirection numObjectives i))
    selected

/-- Body of the loop `for i` of `FindExtremePoints`; the state is `(indexes, selected)`. -/
def extremeStep (numObjectives : Nat) (calculatedObjectives : List (List ℚ))
    (front : List Nat) (st : List Nat × List Bool) (i : Nat) : List Nat × List Bool :=
  let dists := maskedDistances numObjectives calculatedObjectives front st.2 i
  (st.1.set i (indexMin dists), st.2.set (indexMin dists) true)

/-- `NSGA::FindExtremePoints`, returning the out-parameter `indexes`. -/
def FindExtremePoints (numObjectives : Nat) (indexes : List Nat)
    (calculatedObjectives : List (List ℚ)) (front : List Nat) : List Nat :=
  if numObjectives ≥ front.length then List.range front.length
  else
    ((List.range numObjectives).foldl (extremeStep numObjectives calculatedObjectives front)
      (indexes, List.replicate front.length false)).1

/-! ## Driver: returned value -/

/-- Lines 158–161 of `Optimize`: `calculatedObjectives` is resized to the population, filled
with zero vectors and handed to `EvaluateObjectives`. -/
def Optimize_evaluateGeneration {n : Nat} (populationSize : Nat)
    (population : List (Candidate n)) (objectives : List (Candidate n → ℚ)) : List (List ℚ) :=
  EvaluateObjectives populationSize population objectives
    (List.replicate population.length (List.replicate objectives.length 0))

/-- Lines 236–242 of `Optimize`: the scan for the smallest `arma::accu(objective)`, started
from `elemMax`, which stands for `std::numeric_limits<ElemType>::max()`. -/
def Optimize_performance (elemMax : ℚ) (calculatedObjectives : List (List ℚ)) : ℚ :=
  calculatedObjectives.foldl
    (fun performance objective =>
      if objective.sum < performance then objective.sum else performance)
    elemMax

/-- Lines 207 and 236–242 of `Optimize`: the value returned, from the population and the
`calculatedObjectives` left by the generational loop. -/
def Optimize_returnValue {n : Nat} (elemMax : ℚ) (populationSize : Nat)
    (population : List (Candidate n)) (objectives : List (Candidate n → ℚ))
    (calculatedObjectives : List (List ℚ)) : ℚ :=
  Optimize_performance elemMax
    (EvaluateObjectives populationSize population objectives calculatedObjectives)

/-! ## Epsilon indicator -/

/-- Largest entry of a list (0 for the empty list). -/
def maxOf (l : List ℚ) : ℚ := l.foldl max (l.headD 0)

/-- Smallest entry of a list (0 for the empty list). -/
def minOf (l : List ℚ) : ℚ := l.foldl min (l.headD 0)

/-- Modelled from the spec: `Epsilon::Evaluate` is not among the sources, only its test is.
The spec calls the indicator the largest component-wise multiplicative gap between an
achieved front and a reference front: for each reference point the gap to a front point is
the largest ratio of their components, the gap to the front is the smallest gap to one of its
points, and the indicator is the largest gap over the reference points. A front is the list of
its points (the slices of the cube). -/
def Epsilon_Evaluate (front referenceFront : List (List ℚ)) : ℚ :=
  maxOf (referenceFront.map (fun r =>
    minOf (front.map (fun a => maxOf (List.zipWith (fun x y => x / y) a r)))))

/-! ## Sort with guarded decrement -/

/-- `relaxStep` with the decrement guarded: the run stops with `none` as soon as a counter
that is 0 is about to be decremented. -/
def relaxStepChecked (i : Nat) (acc : Option (SortState × List Nat)) (q : Nat) :
    Option (SortState × List Nat) :=
  match acc with
  | none => none
  | some a => if a.1.dominationCount q = 0 then none else some (relaxStep i a q)

/-- `processFront` over the guarded decrement. -/
def processFrontChecked (i : Nat) (st : SortState) : Option (SortState × List Nat) :=
  (st.fronts.getD i []).foldl
    (fun acc p =>
      match acc with
      | none => none
      | some a => (a.1.dominated p).foldl (relaxStepChecked i) (some a))
    (some (st, []))

/-- `sortLoop` over the guarded decrement. -/
def sortLoopChecked : Nat → Nat → SortState → Option SortState
  | 0, _, _ => none
  | fuel + 1, i, st =>
    if (st.fronts.getD i []).isEmpty then some st
    else
      match processFrontChecked i st with
      | none => none
      | some r => sortLoopChecked fuel (i + 1) { r.1 with fronts := r.1.fronts ++ [r.2] }

/-- `FastNonDominatedSort` over the guarded decrement: `none` when the fuel runs out or when
a counter would be decremented below zero. -/
def FastNonDominatedSortChecked (fuel populationSize : Nat) (ranks : List Nat)
    (calculatedObjectives : List (List ℚ)) : Option (List (List Nat) × List Nat) :=
  (sortLoopChecked fuel 0 (initSort populationSize ranks calculatedObjectives)).map
    fun st => (st.fronts.dropLast, st.ranks)

/-! ## Specification vocabulary -/

/-- Sum of the objective values of a candidate: a measure that strictly decreases along
dominance. -/
def objSum (objs : List (List ℚ)) (p : Nat) : ℚ :=
  ∑ i in Finset.range (objs.getD 0 []).length, objAt objs p i

/-- Number of candidates below `populationSize` that dominate `q`. -/
def domCount (objs : List (List ℚ)) (populationSize q : Nat) : Nat :=
  (List.range populationSize).countP (fun p => Dominates objs p q)

/-- Candidate `q` is a member of the front number `k` of `fronts`. -/
def InFront (fronts : List (List Nat)) (k q : Nat) : Prop :=
  ∃ f, fronts[k]? = some f ∧ q ∈ f

/-- State reached by the first phase after the candidates below `n` have been handled. -/
structure InitInv (objs : List (List ℚ)) (N : Nat) (ranks0 : List Nat) (n : Nat)
    (st : SortState) : Prop where
  fronts : st.fronts = [(List.range n).filter (fun p => decide (domCount objs N p = 0))]
  dom_mem : ∀ p < n, ∀ q, q ∈ st.dominated p ↔ q < N ∧ Dominates objs p q = true
  dom_nodup : ∀ p, (st.dominated p).Nodup
  cnt : ∀ p < n, st.dominationCount p = domCount objs N p
  rk_len : st.ranks.length = ranks0.length
  rk : ∀ p < n, domCount objs N p = 0 → p < ranks0.length → st.ranks[p]? = some 0

/-- Loop invariant of the second phase: `prev` are the fronts already processed, `C` is the
front `fronts[i]` about to be tested, `L` the length of `ranks`, `F0` the first front. -/
structure LoopInv (objs : List (List ℚ)) (N L : Nat) (F0 : List Nat) (prev : List (List Nat))
    (C : List Nat) (st : SortState) : Prop where
  fronts : st.fronts = prev ++ [C]
  dom_mem : ∀ p < N, ∀ q, q ∈ st.dominated p ↔ q < N ∧ Dominates objs p q = true
  dom_nodup : ∀ p, (st.dominated p).Nodup
  nodup : (prev.flatten ++ C).Nodup
  lt : ∀ q ∈ prev.flatten ++ C, q < N
  cnt : ∀ q < N, st.dominationCount q + prev.flatten.countP (fun p => Dominates objs p q) =
    domCount objs N q
  zero : ∀ q < N, q ∈ prev.flatten ++ C ↔ st.dominationCount q = 0
  rk_len : st.ranks.length = L
  rk : ∀ k q, InFront (prev ++ [C]) k q → q < L → st.ranks[q]? = some k
  pred : ∀ k q, InFront (prev ++ [C]) k q → ∀ p < N, Dominates objs p q = true →
    ∃ j, j < k ∧ InFront (prev ++ [C]) j p
  nonempty : ∀ f ∈ prev, f ≠ []
  front0 : (prev ++ [C])[0]? = some F0

/-- What `FastNonDominatedSort` guarantees about its out-parameters `fronts` and `ranks`
(`ranks0` is `ranks` on entry). -/
structure SortSpec (objs : List (List ℚ)) (N : Nat) (ranks0 : List Nat)
    (fronts : List (List Nat)) (ranks : List Nat) : Prop where
  nodup : fronts.flatten.Nodup
  mem : ∀ q, q ∈ fronts.flatten ↔ q < N
  nonempty : ∀ f ∈ fronts, f ≠ []
  front0 : ∀ q, InFront fronts 0 q ↔ q < N ∧ domCount objs N q = 0
  pred : ∀ k q, InFront fronts k q → ∀ p < N, Dominates objs p q = true →
    ∃ j, j < k ∧ InFront fronts j p
  rk_len : ranks.length = ranks0.length
  rk : ∀ k q, InFront fronts k q → q < ranks0.length → ranks[q]? = some k

/-- Every variable of `c` lies within `[lowerBound, upperBound]`. -/
def InBounds {n : Nat} (lowerBound upperBound c : Candidate n) : Prop :=
  ∀ i, lowerBound i ≤ c i ∧ c i ≤ upperBound i

/-- The list `normalization` holds, for each of the `numObjectives` objectives, the maximum of
that objective over the members of `front`. -/
def IsFrontMaxima (numObjectives : Nat) (calculatedObjectives : List (List ℚ))
    (front : List Nat) (normalization : List ℚ) : Prop :=
  normalization.length = numObjectives ∧
  ∀ k < numObjectives, ∃ v, normalization[k]? = some v ∧
    (∀ p ∈ front, objAt calculatedObjectives p k ≤ v) ∧
    (∃ p ∈ front, v = objAt calculatedObjectives p k)

/-- Distance of the front member at position `j` to the probe line of axis `i`, as
`FindExtremePoints` computes it. -/
def axisDistance (numObjectives : Nat) (calculatedObjectives : List (List ℚ))
    (front : List Nat) (i j : Nat) : ℚ :=
  (PointToLineDistance calculatedObjectives front (fun _ => 0)
    (probeDirection numObjectives i)).getD j 0

/-- Loop invariant of `FindExtremePoints` after the axes below `n`. -/
structure ExtremeInv (numObjectives : Nat) (objs : List (List ℚ)) (front : List Nat) (n : Nat)
    (st : List Nat × List Bool) : Prop where
  len : st.1.length = numObjectives
  sel_len : st.2.length = front.length
  nodup : (st.1.take n).Nodup
  lt : ∀ x ∈ st.1.take n, x < front.length
  sel : ∀ j, st.2.getD j false = true ↔ j ∈ st.1.take n
  best : ∀ a < n, ∀ j < front.length, j ∉ st.1.take a →
    axisDistance numObjectives objs front a (st.1.getD a 0) ≤
      axisDistance numObjectives objs front a j

/-- Point `a` Pareto-dominates point `b`: no larger in any coordinate, smaller in one. -/
def PointDominates (a b : List ℚ) : Prop :=
  (∀ k < a.length, a.getD k 0 ≤ b.getD k 0) ∧ ∃ k < a.length, a.getD k 0 < b.getD k 0

/-! ## Theorems: dominance -/

theorem dominates_fold (objs : List (List ℚ)) (p q : Nat) (l : List Nat) (a b : Bool) :
    l.foldl (dominatesStep objs p q) (a, b) =
      (a && l.all (fun i => decide (objAt objs p i ≤ objAt objs q i)),
       b || l.any (fun i => decide (objAt objs p i < objAt objs q i))) := by
  induction l generalizing a b with
  | nil => simp
  | cons i l ih =>
    rw [List.foldl_cons]
    by_cases h1 : objAt objs p i > objAt objs q i
    · have h2 : ¬ objAt objs p i ≤ objAt objs q i := not_le.mpr h1
      have hs : dominatesStep objs p q (a, b) i = (false, b) := by
        simp [dominatesStep, h1]
      rw [hs, ih]
      simp [h2, not_lt.mpr (le_of_lt h1)]
    · have h2 : objAt objs p i ≤ objAt objs q i := not_lt.mp h1
      by_cases h3 : objAt objs p i < objAt objs q i
      · have hs : dominatesStep objs p q (a, b) i = (a, true) := by
          simp [dominatesStep, h1, h3]
        rw [hs, ih]
        simp [h2, h3]
      · have hs : dominatesStep objs p q (a, b) i = (a, b) := by
          simp [dominatesStep, h1, h3]
        rw [hs, ih]
        simp [h2, h3]

theorem dominates_iff (calculatedObjectives : List (List ℚ)) (p q : Nat) :
    Dominates calculatedObjectives p q = true ↔
      (∀ i < (calculatedObjectives.getD 0 []).length,
          objAt calculatedObjectives p i ≤ objAt calculatedObjectives q i) ∧
      (∃ i < (calculatedObjectives.getD 0 []).length,
          objAt calculatedObjectives p i < objAt calculatedObjectives q i) := by
  unfold Dominates
  simp only [dominates_fold, Bool.true_and, Bool.false_or, Bool.and_eq_true, List.all_eq_true,
    List.any_eq_true, List.mem_range, decide_eq_true_eq]

/-- C1. `Dominates(p, q)` is true exactly when the objective vector of `p` is less than or
equal to that of `q` in every objective and strictly less in at least one. -/
theorem Dominates_iff_pareto (calculatedObjectives : List (List ℚ)) (p q : Nat) :
    Dominates calculatedObjectives p q = true ↔
      (∀ i < (calculatedObjectives.getD 0 []).length,
          objAt calculatedObjectives p i ≤ objAt calculatedObjectives q i) ∧
      (∃ i < (calculatedObjectives.getD 0 []).length,
          objAt calculatedObjectives p i < objAt calculatedObjectives q i) :=
  dominates_iff calculatedObjectives p q

/-- C2. Two candidates with identical objective vectors (the case `p = q` included) do not
dominate each other, in either direction. -/
theorem Dominates_identical (calculatedObjectives : List (List ℚ)) (p q : Nat)
    (h : calculatedObjectives.getD p [] = calculatedObjectives.getD q []) :
    Dominates calculatedObjectives p q = false ∧ Dominates calculatedObjectives q p = false := by
  have hpq : ∀ i, objAt calculatedObjectives p i = objAt calculatedObjectives q i := by
    intro i
    unfold objAt
    rw [h]
  constructor
  · rw [← Bool.not_eq_true, dominates_iff]
    rintro ⟨-, i, -, hi⟩
    rw [hpq] at hi
    exact lt_irrefl _ hi
  · rw [← Bool.not_eq_true, dominates_iff]
    rintro ⟨-, i, -, hi⟩
    rw [hpq] at hi
    exact lt_irrefl _ hi

/-- Instance of `Dominates_identical`: candidates 0 and 2 carry the same vector. -/
theorem Dominates_identical_witness :
    ([[1, 2], [3, 1], [1, 2]] : List (List ℚ)).getD 0 [] =
        ([[1, 2], [3, 1], [1, 2]] : List (List ℚ)).getD 2 [] ∧
      (Dominates [[1, 2], [3, 1], [1, 2]] 0 2 = false ∧
        Dominates [[1, 2], [3, 1], [1, 2]] 2 0 = false) :=
  ⟨by rfl, Dominates_identical [[1, 2], [3, 1], [1, 2]] 0 2 (by rfl)⟩

theorem dominates_irrefl (objs : List (List ℚ)) (p : Nat) : Dominates objs p p = false := by
  rw [← Bool.not_eq_true, dominates_iff]
  rintro ⟨-, i, -, hi⟩
  exact lt_irrefl _ hi

theorem dominates_asymm (objs : List (List ℚ)) (p q : Nat) (h : Dominates objs p q = true) :
    Dominates objs q p = false := by
  rw [← Bool.not_eq_true, dominates_iff]
  rintro ⟨h1, -⟩
  obtain ⟨-, i, hi, h2⟩ := (dominates_iff objs p q).1 h
  exact absurd (h1 i hi) (not_le.mpr h2)

theorem dominates_trans (objs : List (List ℚ)) (p q r : Nat) (h1 : Dominates objs p q = true)
    (h2 : Dominates objs q r = true) : Dominates objs p r = true := by
  rw [dominates_iff] at h1 h2 ⊢
  obtain ⟨a1, i, hi, b1⟩ := h1
  obtain ⟨a2, -⟩ := h2
  exact ⟨fun j hj => le_trans (a1 j hj) (a2 j hj), i, hi, lt_of_lt_of_le b1 (a2 i hi)⟩

theorem objSum_lt (objs : List (List ℚ)) (p q : Nat) (h : Dominates objs p q = true) :
    objSum objs p < objSum objs q := by
  obtain ⟨h1, i, hi, h2⟩ := (dominates_iff objs p q).1 h
  exact Finset.sum_lt_sum (fun j hj => h1 j (Finset.mem_range.1 hj))
    ⟨i, Finset.mem_range.2 hi, h2⟩

/-- In a nonempty finite set of candidates some member is dominated by no member. -/
theorem exists_nondominated (objs : List (List ℚ)) (U : Finset Nat) (hU : U.Nonempty) :
    ∃ q ∈ U, ∀ p ∈ U, Dominates objs p q = false := by
  obtain ⟨q, hq, hmin⟩ := Finset.exists_min_image U (objSum objs) hU
  refine ⟨q, hq, fun p hp => ?_⟩
  rw [← Bool.not_eq_true]
  intro hd
  exact absurd (hmin p hp) (not_le.mpr (objSum_lt objs p q hd))

/-! ## Theorems: first phase of the sort -/

theorem mapSet_same {β : Type} (m : Nat → β) (k : Nat) (v : β) : mapSet m k v k = v := by
  simp [mapSet]

theorem mapSet_other {β : Type} (m : Nat → β) (k j : Nat) (v : β) (h : j ≠ k) :
    mapSet m k v j = m j := by
  simp [mapSet, h]

theorem mem_setInsert (q a : Nat) (s : List Nat) : a ∈ setInsert q s ↔ a = q ∨ a ∈ s := by
  unfold setInsert
  split
  · rename_i h
    constructor
    · intro ha; exact Or.inr ha
    · rintro (rfl | ha)
      · exact h
      · exact ha
  · simp [List.mem_orderedInsert]

theorem nodup_setInsert (q : Nat) (s : List Nat) (h : s.Nodup) : (setInsert q s).Nodup := by
  unfold setInsert
  split
  · exact h
  · rename_i hq
    exact ((List.perm_orderedInsert (· ≤ ·) q s).nodup_iff).2 (List.nodup_cons.2 ⟨hq, h⟩)

theorem compare_fold (objs : List (List ℚ)) (p : Nat) (l : List Nat) (st : SortState) :
    (l.foldl (compareStep objs p) st).fronts = st.fronts ∧
    (l.foldl (compareStep objs p) st).ranks = st.ranks ∧
    (∀ j, j ≠ p → (l.foldl (compareStep objs p) st).dominated j = st.dominated j ∧
      (l.foldl (compareStep objs p) st).dominationCount j = st.dominationCount j) ∧
    (∀ q, q ∈ (l.foldl (compareStep objs p) st).dominated p ↔
      q ∈ st.dominated p ∨ (q ∈ l ∧ Dominates objs p q = true)) ∧
    ((st.dominated p).Nodup → ((l.foldl (compareStep objs p) st).dominated p).Nodup) ∧
    (st.dominationCount p + l.countP (fun q => Dominates objs q p) < SIZE_MOD →
      (l.foldl (compareStep objs p) st).dominationCount p =
        st.dominationCount p + l.countP (fun q => Dominates objs q p)) := by
  induction l generalizing st with
  | nil => simp
  | cons q l ih =>
    rw [List.foldl_cons]
    obtain ⟨i1, i2, i3, i4, i5, i6⟩ := ih (compareStep objs p st q)
    by_cases h1 : Dominates objs p q = true
    · have h2 : Dominates objs q p = false := dominates_asymm objs p q h1
      have hs : compareStep objs p st q =
          { st with dominated := mapSet st.dominated p (setInsert q (st.dominated p)) } := by
        simp [compareStep, h1]
      rw [hs] at i1 i2 i3 i4 i5 i6
      rw [hs]
      refine ⟨i1, i2, ?_, ?_, ?_, ?_⟩
      · intro j hj
        have := i3 j hj
        simpa [mapSet_other _ _ _ _ hj] using this
      · intro a
        rw [i4 a]
        simp only [mapSet_same, mem_setInsert, List.mem_cons]
        constructor
        · rintro ((rfl | h) | ⟨h, h'⟩)
          · exact Or.inr ⟨Or.inl rfl, h1⟩
          · exact Or.inl h
          · exact Or.inr ⟨Or.inr h, h'⟩
        · rintro (h | ⟨rfl | h, h'⟩)
          · exact Or.inl (Or.inr h)
          · exact Or.inl (Or.inl rfl)
          · exact Or.inr ⟨h, h'⟩
      · intro hn
        apply i5
        simp only [mapSet_same]
        exact nodup_setInsert q _ hn
      · intro hlt
        simp only [List.countP_cons, h2] at hlt ⊢
        simpa using i6 (by simpa using hlt)
    · have h1' : Dominates objs p q = false := by simpa using h1
      by_cases h2 : Dominates objs q p = true
      · have hs : compareStep objs p st q =
            { st with dominationCount :=
                (mapSet st.dominationCount p ((st.dominationCount p + 1) % SIZE_MOD)) } := by
          simp [compareStep, h1', h2]
        rw [hs] at i1 i2 i3 i4 i5 i6
        rw [hs]
        refine ⟨i1, i2, ?_, ?_, i5, ?_⟩
        · intro j hj
          have := i3 j hj
          simpa [mapSet_other _ _ _ _ hj] using this
        · intro a
          rw [i4 a]
          simp only [List.mem_cons]
          constructor
          · rintro (h | ⟨h, h'⟩)
            · exact Or.inl h
            · exact Or.inr ⟨Or.inr h, h'⟩
          · rintro (h | ⟨rfl | h, h'⟩)
            · exact Or.inl h
            · rw [h1'] at h'; exact absurd h' (by simp)
            · exact Or.inr ⟨h, h'⟩
        · intro hlt
          simp only [List.countP_cons, h2, if_true] at hlt ⊢
          simp only [mapSet_same] at i6
          have hm : (st.dominationCount p + 1) % SIZE_MOD = st.dominationCount p + 1 :=
            Nat.mod_eq_of_lt (by omega)
          rw [hm] at i6 ⊢
          rw [i6 (by omega)]
          omega
      · have h2' : Dominates objs q p = false := by simpa using h2
        have hs : compareStep objs p st q = st := by
          simp [compareStep, h1', h2']
        rw [hs] at i1 i2 i3 i4 i5 i6
        rw [hs]
        refine ⟨i1, i2, i3, ?_, i5, ?_⟩
        · intro a
          rw [i4 a]
          simp only [List.mem_cons]
          constructor
          · rintro (h | ⟨h, h'⟩)
            · exact Or.inl h
            · exact Or.inr ⟨Or.inr h, h'⟩
          · rintro (h | ⟨rfl | h, h'⟩)
            · exact Or.inl h
            · rw [h1'] at h'; exact absurd h' (by simp)
            · exact Or.inr ⟨h, h'⟩
        · intro hlt
          simp only [List.countP_cons, h2'] at hlt ⊢
          simpa using i6 (by simpa using hlt)

theorem domCount_le (objs : List (List ℚ)) (N q : Nat) : domCount objs N q ≤ N := by
  unfold domCount
  calc (List.range N).countP (fun p => Dominates objs p q) ≤ (List.range N).length :=
        List.countP_le_length _
    _ = N := List.length_range N

theorem initStep_spec (objs : List (List ℚ)) (N : Nat) (hN : N < SIZE_MOD) (st : SortState)
    (p : Nat) :
    (∀ j, j ≠ p → (initStep N objs st p).dominated j = st.dominated j ∧
      (initStep N objs st p).dominationCount j = st.dominationCount j) ∧
    (∀ q, q ∈ (initStep N objs st p).dominated p ↔ q < N ∧ Dominates objs p q = true) ∧
    ((initStep N objs st p).dominated p).Nodup ∧
    (initStep N objs st p).dominationCount p = domCount objs N p ∧
    (initStep N objs st p).ranks =
      (if domCount objs N p = 0 then st.ranks.set p 0 else st.ranks) ∧
    (initStep N objs st p).fronts =
      (if domCount objs N p = 0 then st.fronts.set 0 (st.fronts.getD 0 [] ++ [p])
        else st.fronts) := by
  obtain ⟨c1, c2, c3, c4, c5, c6⟩ := compare_fold objs p (List.range N)
    { st with dominated := mapSet st.dominated p [],
              dominationCount := mapSet st.dominationCount p 0 }
  simp only [mapSet_same, List.not_mem_nil, false_or, List.mem_range, List.nodup_nil,
    true_implies, Nat.zero_add] at c4 c5 c6
  have hc : (List.range N).countP (fun q => Dominates objs q p) < SIZE_MOD :=
    lt_of_le_of_lt (domCount_le objs N p) hN
  have c6' := c6 hc
  have hj : ∀ j, j ≠ p →
      ((List.range N).foldl (compareStep objs p)
        { st with dominated := mapSet st.dominated p [],
                  dominationCount := mapSet st.dominationCount p 0 }).dominated j =
        st.dominated j ∧
      ((List.range N).foldl (compareStep objs p)
        { st with dominated := mapSet st.dominated p [],
                  dominationCount := mapSet st.dominationCount p 0 }).dominationCount j =
        st.dominationCount j := by
    intro j hj
    have := c3 j hj
    simpa [mapSet_other _ _ _ _ hj] using this
  unfold initStep
  simp only [c6']
  by_cases h0 : domCount objs N p = 0
  · have h0' : (List.range N).countP (fun q => Dominates objs q p) = 0 := h0
    simp only [h0, h0', if_true]
    exact ⟨hj, c4, c5, c6'.trans h0', by rw [c2], by rw [c1]⟩
  · have h0' : ¬ (List.range N).countP (fun q => Dominates objs q p) = 0 := h0
    simp only [h0, h0', if_false]
    exact ⟨hj, c4, c5, c6', c2, c1⟩

theorem initSort_inv (objs : List (List ℚ)) (N : Nat) (hN : N < SIZE_MOD) (ranks0 : List Nat)
    (n : Nat) :
    InitInv objs N ranks0 n ((List.range n).foldl (initStep N objs)
      { fronts := [[]], ranks := ranks0, dominationCount := fun _ => 0,
        dominated := fun _ => [] }) := by
  induction n with
  | zero =>
    exact ⟨by simp, by intro p hp; omega, by intro p; simp, by intro p hp; omega, rfl,
      by intro p hp; omega⟩
  | succ n ih =>
    rw [List.range_succ, List.foldl_append, List.foldl_cons, List.foldl_nil]
    generalize (List.range n).foldl (initStep N objs)
      { fronts := [[]], ranks := ranks0, dominationCount := fun _ => 0,
        dominated := fun _ => [] } = st at ih ⊢
    obtain ⟨s1, s2, s3, s4, s5, s6⟩ := initStep_spec objs N hN st n
    refine ⟨?_, ?_, ?_, ?_, ?_, ?_⟩
    · rw [s6, ih.fronts, List.range_succ, List.filter_append]
      by_cases h0 : domCount objs N n = 0
      · simp [h0]
      · simp [h0]
    · intro p hp q
      by_cases hpn : p = n
      · subst hpn; exact s2 q
      · rw [(s1 p hpn).1]
        exact ih.dom_mem p (by omega) q
    · intro p
      by_cases hpn : p = n
      · subst hpn; exact s3
      · rw [(s1 p hpn).1]
        exact ih.dom_nodup p
    · intro p hp
      by_cases hpn : p = n
      · subst hpn; exact s4
      · rw [(s1 p hpn).2]
        exact ih.cnt p (by omega)
    · rw [s5]
      split
      · rw [List.length_set]; exact ih.rk_len
      · exact ih.rk_len
    · intro p hp h0 hl
      rw [s5]
      by_cases hpn : p = n
      · subst hpn
        rw [if_pos h0, List.getElem?_set_self (by rw [ih.rk_len]; exact hl)]
      · split
        · rw [List.getElem?_set_ne (Ne.symm hpn)]
          exact ih.rk p (by omega) h0 hl
        · exact ih.rk p (by omega) h0 hl

theorem initSort_spec (objs : List (List ℚ)) (N : Nat) (hN : N < SIZE_MOD) (ranks0 : List Nat) :
    InitInv objs N ranks0 N (initSort N ranks0 objs) :=
  initSort_inv objs N hN ranks0 N

/-! ## Theorems: second phase of the sort -/

theorem sizeDec_eq_mod (c : Nat) (h : c < SIZE_MOD) :
    sizeDec c = (c + (SIZE_MOD - 1)) % SIZE_MOD := by
  unfold sizeDec SIZE_MOD at *
  split <;> omega

theorem sizeDec_pos (c : Nat) (h : 0 < c) : sizeDec c = c - 1 := by
  unfold sizeDec
  rw [if_neg (by omega)]

theorem relax_fold (i : Nat) (l : List Nat) (st : SortState) (nf : List Nat)
    (hc : ∀ q, l.count q ≤ st.dominationCount q) :
    ∃ added : List Nat,
      (l.foldl (relaxStep i) (st, nf)).2 = nf ++ added ∧
      added.Nodup ∧
      (∀ q, q ∈ added ↔ q ∈ l ∧ st.dominationCount q = l.count q) ∧
      (l.foldl (relaxStep i) (st, nf)).1.fronts = st.fronts ∧
      (l.foldl (relaxStep i) (st, nf)).1.dominated = st.dominated ∧
      (∀ q, (l.foldl (relaxStep i) (st, nf)).1.dominationCount q =
        st.dominationCount q - l.count q) ∧
      (l.foldl (relaxStep i) (st, nf)).1.ranks.length = st.ranks.length ∧
      (∀ q ∈ added, q < st.ranks.length →
        (l.foldl (relaxStep i) (st, nf)).1.ranks[q]? = some (i + 1)) ∧
      (∀ q, q ∉ added → (l.foldl (relaxStep i) (st, nf)).1.ranks[q]? = st.ranks[q]?) := by
  induction l generalizing st nf with
  | nil =>
    refine ⟨[], by simp, List.nodup_nil, by simp, rfl, rfl, by simp, rfl, by simp, by simp⟩
  | cons a l ih =>
    rw [List.foldl_cons]
    have hca : l.count a + 1 ≤ st.dominationCount a := by
      have := hc a
      rwa [List.count_cons_self] at this
    have hdec : sizeDec (st.dominationCount a) = st.dominationCount a - 1 :=
      sizeDec_pos _ (by omega)
    have hcnt : ∀ q, q ≠ a → (a :: l).count q = l.count q := by
      intro q hq
      rw [List.count_cons_of_ne hq]
    by_cases hz : st.dominationCount a - 1 = 0
    · have hs : relaxStep i (st, nf) a =
          ({ st with dominationCount := (mapSet st.dominationCount a (st.dominationCount a - 1)),
                     ranks := st.ranks.set a (i + 1) }, nf ++ [a]) := by
        simp [relaxStep, hdec, hz]
      rw [hs]
      have hal : l.count a = 0 := by omega
      have hanl : a ∉ l := List.count_eq_zero.1 hal
      obtain ⟨added, e1, e2, e3, e4, e5, e6, e7, e8, e9⟩ := ih
        { st with dominationCount := (mapSet st.dominationCount a (st.dominationCount a - 1)),
                  ranks := st.ranks.set a (i + 1) } (nf ++ [a])
        (by
          intro q
          by_cases hq : q = a
          · subst hq; simp only [mapSet_same]; omega
          · simp only [mapSet_other _ _ _ _ hq]
            have := hc q
            rwa [hcnt q hq] at this)
      dsimp only at e3 e4 e5 e6 e7 e8 e9
      have haa : a ∉ added := fun h => hanl ((e3 a).1 h).1
      refine ⟨a :: added, ?_, ?_, ?_, e4, e5, ?_, ?_, ?_, ?_⟩
      · rw [e1]; simp
      · exact List.nodup_cons.2 ⟨haa, e2⟩
      · intro q
        by_cases hq : q = a
        · subst hq
          simp only [List.mem_cons, true_or, List.count_cons_self, true_and, true_iff]
          omega
        · simp only [List.mem_cons, hq, false_or, hcnt q hq]
          rw [e3 q]
          simp only [mapSet_other _ _ _ _ hq]
      · intro q
        rw [e6 q]
        by_cases hq : q = a
        · subst hq
          simp only [mapSet_same, List.count_cons_self]
          omega
        · simp only [mapSet_other _ _ _ _ hq, hcnt q hq]
      · rw [e7]; simp
      · intro q hq hlen
        rcases List.mem_cons.1 hq with rfl | hq'
        · rw [e9 q haa, List.getElem?_set_self hlen]
        · exact e8 q hq' (by simpa using hlen)
      · intro q hq
        have hqa : q ≠ a := fun h => hq (h ▸ List.mem_cons_self a added)
        have hq' : q ∉ added := fun h => hq (List.mem_cons_of_mem a h)
        rw [e9 q hq', List.getElem?_set_ne (Ne.symm hqa)]
    · have hs : relaxStep i (st, nf) a =
          ({ st with dominationCount :=
              (mapSet st.dominationCount a (st.dominationCount a - 1)) }, nf) := by
        simp [relaxStep, hdec, hz]
      rw [hs]
      obtain ⟨added, e1, e2, e3, e4, e5, e6, e7, e8, e9⟩ := ih
        { st with dominationCount :=
            (mapSet st.dominationCount a (st.dominationCount a - 1)) } nf
        (by
          intro q
          by_cases hq : q = a
          · subst hq; simp only [mapSet_same]; omega
          · simp only [mapSet_other _ _ _ _ hq]
            have := hc q
            rwa [hcnt q hq] at this)
      dsimp only at e3 e4 e5 e6 e7 e8 e9
      refine ⟨added, e1, e2, ?_, e4, e5, ?_, e7, e8, e9⟩
      · intro q
        rw [e3 q]
        by_cases hq : q = a
        · subst hq
          simp only [mapSet_same, List.mem_cons, true_or, List.count_cons_self, true_and]
          constructor
          · rintro ⟨-, h⟩; omega
          · intro h
            have h' : st.dominationCount q - 1 = l.count q := by omega
            refine ⟨?_, h'⟩
            apply List.count_pos_iff.1
            omega
        · simp only [mapSet_other _ _ _ _ hq, List.mem_cons, hq, false_or, hcnt q hq]
      · intro q
        rw [e6 q]
        by_cases hq : q = a
        · subst hq
          simp only [mapSet_same, List.count_cons_self]
          omega
        · simp only [mapSet_other _ _ _ _ hq, hcnt q hq]

theorem relaxStep_dominated (i : Nat) (acc : SortState × List Nat) (q : Nat) :
    (relaxStep i acc q).1.dominated = acc.1.dominated := by
  simp only [relaxStep]
  split <;> rfl

theorem relax_fold_dominated (i : Nat) (l : List Nat) (acc : SortState × List Nat) :
    (l.foldl (relaxStep i) acc).1.dominated = acc.1.dominated := by
  induction l generalizing acc with
  | nil => rfl
  | cons a l ih => rw [List.foldl_cons, ih, relaxStep_dominated]

theorem processFront_fold (i : Nat) (C : List Nat) (acc : SortState × List Nat) :
    C.foldl (fun acc p => (acc.1.dominated p).foldl (relaxStep i) acc) acc =
      (C.flatMap acc.1.dominated).foldl (relaxStep i) acc := by
  induction C generalizing acc with
  | nil => simp only [List.foldl_nil, List.flatMap_nil]
  | cons p C ih =>
    simp only [List.foldl_cons]
    have h := ih ((acc.1.dominated p).foldl (relaxStep i) acc)
    rw [relax_fold_dominated] at h
    rw [List.flatMap_cons, List.foldl_append]
    exact h

theorem count_flatMap_dominated (objs : List (List ℚ)) (N : Nat) (dom : Nat → List Nat)
    (hmem : ∀ p < N, ∀ q, q ∈ dom p ↔ q < N ∧ Dominates objs p q = true)
    (hnd : ∀ p, (dom p).Nodup) (C : List Nat) (hC : ∀ p ∈ C, p < N) (q : Nat) (hq : q < N) :
    (C.flatMap dom).count q = C.countP (fun p => Dominates objs p q) := by
  induction C with
  | nil => rfl
  | cons p C ih =>
    have hp : p < N := hC p (List.mem_cons_self p C)
    rw [List.flatMap_cons, List.count_append, ih (fun x hx => hC x (List.mem_cons_of_mem p hx)),
      List.countP_cons]
    by_cases hd : Dominates objs p q = true
    · have hm : q ∈ dom p := (hmem p hp q).2 ⟨hq, hd⟩
      rw [List.count_eq_one_of_mem (hnd p) hm]
      simp [hd]
      omega
    · have hm : q ∉ dom p := fun h => hd ((hmem p hp q).1 h).2
      rw [List.count_eq_zero_of_not_mem hm]
      simp [hd]

theorem mem_flatMap_dominated_lt (objs : List (List ℚ)) (N : Nat) (dom : Nat → List Nat)
    (hmem : ∀ p < N, ∀ q, q ∈ dom p ↔ q < N ∧ Dominates objs p q = true)
    (C : List Nat) (hC : ∀ p ∈ C, p < N) (q : Nat) (hq : q ∈ C.flatMap dom) : q < N := by
  obtain ⟨p, hp, hqp⟩ := List.mem_flatMap.1 hq
  exact ((hmem p (hC p hp) q).1 hqp).1

theorem countP_le_range (f : Nat → Bool) (N : Nat) (J : List Nat) (hnd : J.Nodup)
    (hlt : ∀ q ∈ J, q < N) : J.countP f ≤ (List.range N).countP f :=
  List.Subperm.countP_le f
    (List.subperm_of_subset hnd (fun q hq => List.mem_range.2 (hlt q hq)))

theorem length_le_of_nodup_lt (N : Nat) (J : List Nat) (hnd : J.Nodup)
    (hlt : ∀ q ∈ J, q < N) : J.length ≤ N := by
  have := List.Subperm.length_le
    (List.subperm_of_subset hnd (fun q hq => List.mem_range.2 (hlt q hq)))
  rwa [List.length_range] at this

theorem mem_of_countP_eq (f : Nat → Bool) (N : Nat) (J : List Nat) (hnd : J.Nodup)
    (hlt : ∀ q ∈ J, q < N) (heq : J.countP f = (List.range N).countP f) (p : Nat) (hp : p < N)
    (hf : f p = true) : p ∈ J := by
  by_contra hpn
  have h1 : (p :: J).countP f ≤ (List.range N).countP f :=
    countP_le_range f N (p :: J) (List.nodup_cons.2 ⟨hpn, hnd⟩) (by
      intro q hq
      rcases List.mem_cons.1 hq with rfl | hq
      · exact hp
      · exact hlt q hq)
  rw [List.countP_cons, hf] at h1
  simp at h1
  omega

theorem countP_eq_of_mem (f : Nat → Bool) (N : Nat) (J : List Nat) (hnd : J.Nodup)
    (hlt : ∀ q ∈ J, q < N) (hall : ∀ p < N, f p = true → p ∈ J) :
    J.countP f = (List.range N).countP f := by
  apply le_antisymm (countP_le_range f N J hnd hlt)
  rw [List.countP_eq_length_filter, List.countP_eq_length_filter]
  apply List.Subperm.length_le
  apply List.subperm_of_subset ((List.nodup_range N).filter f)
  intro p hp
  rw [List.mem_filter, List.mem_range] at hp
  exact List.mem_filter.2 ⟨hall p hp.1 hp.2, hp.2⟩

theorem inFront_lt {fronts : List (List Nat)} {k q : Nat} (h : InFront fronts k q) :
    k < fronts.length := by
  obtain ⟨f, hf, -⟩ := h
  by_contra hk
  rw [List.getElem?_eq_none (by omega)] at hf
  exact absurd hf (by simp)

theorem inFront_concat (fronts : List (List Nat)) (C : List Nat) (k q : Nat) :
    InFront (fronts ++ [C]) k q ↔ InFront fronts k q ∨ (k = fronts.length ∧ q ∈ C) := by
  unfold InFront
  rcases Nat.lt_trichotomy k fronts.length with h | h | h
  · rw [List.getElem?_append_left h]
    constructor
    · intro hx; exact Or.inl hx
    · rintro (hx | ⟨hk, -⟩)
      · exact hx
      · omega
  · subst h
    rw [List.getElem?_concat_length, List.getElem?_eq_none (le_refl _)]
    simp
  · rw [List.getElem?_eq_none (by simp; omega), List.getElem?_eq_none (by omega)]
    simp
    omega

theorem mem_flatten_iff_inFront (fronts : List (List Nat)) (q : Nat) :
    q ∈ fronts.flatten ↔ ∃ k, InFront fronts k q := by
  rw [List.mem_flatten]
  constructor
  · rintro ⟨f, hf, hq⟩
    obtain ⟨k, hk⟩ := List.getElem?_of_mem hf
    exact ⟨k, f, hk, hq⟩
  · rintro ⟨k, f, hk, hq⟩
    exact ⟨f, List.getElem?_mem hk, hq⟩

theorem loopInv_init (objs : List (List ℚ)) (N : Nat) (hN : N < SIZE_MOD) (ranks0 : List Nat) :
    LoopInv objs N ranks0.length
      ((List.range N).filter (fun p => decide (domCount objs N p = 0))) []
      ((List.range N).filter (fun p => decide (domCount objs N p = 0)))
      (initSort N ranks0 objs) := by
  have h := initSort_spec objs N hN ranks0
  refine ⟨by rw [h.fronts]; rfl, h.dom_mem, h.dom_nodup, ?_, ?_, ?_, ?_, h.rk_len, ?_, ?_, ?_, ?_⟩
  · simpa using (List.nodup_range N).filter _
  · intro q hq
    simp only [List.flatten_nil, List.nil_append, List.mem_filter, List.mem_range] at hq
    exact hq.1
  · intro q hq
    simpa using h.cnt q hq
  · intro q hq
    simp only [List.flatten_nil, List.nil_append, List.mem_filter, List.mem_range, hq, true_and,
      decide_eq_true_eq, h.cnt q hq]
  · intro k q hk hl
    rw [inFront_concat] at hk
    rcases hk with hk | ⟨rfl, hq⟩
    · exact absurd (inFront_lt hk) (by simp)
    · simp only [List.mem_filter, List.mem_range, decide_eq_true_eq] at hq
      simpa using h.rk q hq.1 hq.2 hl
  · intro k q hk p hp hd
    rw [inFront_concat] at hk
    rcases hk with hk | ⟨rfl, hq⟩
    · exact absurd (inFront_lt hk) (by simp)
    · simp only [List.mem_filter, List.mem_range, decide_eq_true_eq] at hq
      exfalso
      have h0 := hq.2
      unfold domCount at h0
      rw [List.countP_eq_zero] at h0
      exact h0 p (List.mem_range.2 hp) hd
  · intro f hf
    exact absurd hf (by simp)
  · simp

theorem loopInv_step (objs : List (List ℚ)) (N L : Nat) (F0 : List Nat)
    (prev : List (List Nat)) (C : List Nat) (st : SortState)
    (inv : LoopInv objs N L F0 prev C st) (hC : C ≠ []) :
    LoopInv objs N L F0 (prev ++ [C]) (processFront prev.length st).2
      { (processFront prev.length st).1 with
        fronts := (processFront prev.length st).1.fronts ++ [(processFront prev.length st).2] } := by
  have hget : st.fronts.getD prev.length [] = C := by
    rw [inv.fronts]; simp
  have hCl : ∀ p ∈ C, p < N := fun p hp => inv.lt p (List.mem_append_right _ hp)
  have hCnd : C.Nodup := (List.nodup_append.1 inv.nodup).2.1
  have hcount : ∀ q < N, (C.flatMap st.dominated).count q =
      C.countP (fun p => Dominates objs p q) :=
    fun q hq => count_flatMap_dominated objs N st.dominated inv.dom_mem inv.dom_nodup C hCl q hq
  have hqs : ∀ q ∈ C.flatMap st.dominated, q < N :=
    fun q hq => mem_flatMap_dominated_lt objs N st.dominated inv.dom_mem C hCl q hq
  have hle : ∀ q < N, C.countP (fun p => Dominates objs p q) +
      prev.flatten.countP (fun p => Dominates objs p q) ≤ domCount objs N q := by
    intro q _
    have := countP_le_range (fun p => Dominates objs p q) N _ inv.nodup inv.lt
    rw [List.countP_append] at this
    unfold domCount
    omega
  have hc : ∀ q, (C.flatMap st.dominated).count q ≤ st.dominationCount q := by
    intro q
    by_cases hq : q < N
    · rw [hcount q hq]
      have := hle q hq
      have := inv.cnt q hq
      omega
    · rw [List.count_eq_zero_of_not_mem (fun h => hq (hqs q h))]
      exact Nat.zero_le _
  have hpf : processFront prev.length st =
      (C.flatMap st.dominated).foldl (relaxStep prev.length) (st, []) := by
    unfold processFront
    rw [hget, processFront_fold]
  obtain ⟨added, e1, e2, e3, e4, e5, e6, e7, e8, e9⟩ :=
    relax_fold prev.length (C.flatMap st.dominated) st [] hc
  rw [← hpf] at e1 e4 e5 e6 e7 e8 e9
  rw [List.nil_append] at e1
  have hadd_pos : ∀ q ∈ added, q < N ∧ st.dominationCount q ≠ 0 := by
    intro q hq
    obtain ⟨h1, h2⟩ := (e3 q).1 hq
    refine ⟨hqs q h1, ?_⟩
    have := List.count_pos_iff.2 h1
    omega
  have hdisj : ∀ q ∈ added, q ∉ prev.flatten ++ C := by
    intro q hq hJ
    obtain ⟨h1, h2⟩ := hadd_pos q hq
    exact h2 ((inv.zero q h1).1 hJ)
  have hflat : (prev ++ [C]).flatten = prev.flatten ++ C := by simp
  have hcnt' : ∀ q < N, (processFront prev.length st).1.dominationCount q +
      (prev.flatten ++ C).countP (fun p => Dominates objs p q) = domCount objs N q := by
    intro q hq
    rw [e6 q, hcount q hq, List.countP_append]
    have := hle q hq
    have := inv.cnt q hq
    omega
  refine ⟨by rw [e4, inv.fronts, e1], by rw [e5]; exact inv.dom_mem, by rw [e5]; exact inv.dom_nodup,
    ?_, ?_, ?_, ?_, by rw [e7]; exact inv.rk_len, ?_, ?_, ?_, ?_⟩
  · rw [hflat, e1]
    refine List.nodup_append.2 ⟨inv.nodup, e2, ?_⟩
    intro q hq hq'
    exact hdisj q hq' hq
  · intro q hq
    rw [hflat, e1] at hq
    rcases List.mem_append.1 hq with h | h
    · exact inv.lt q h
    · exact (hadd_pos q h).1
  · intro q hq
    rw [hflat]
    exact hcnt' q hq
  · intro q hq
    rw [hflat, e1, List.mem_append, e3 q]
    dsimp only
    rw [e6 q, inv.zero q hq]
    have hcq := hc q
    constructor
    · rintro (h | ⟨-, h⟩)
      · omega
      · omega
    · intro h
      by_cases h0 : st.dominationCount q = 0
      · exact Or.inl h0
      · refine Or.inr ⟨?_, by omega⟩
        apply List.count_pos_iff.1
        omega
  · intro k q hk hl
    dsimp only
    rw [e1, inFront_concat] at hk
    rcases hk with hk | ⟨hk, hq⟩
    · have hJ : q ∈ prev.flatten ++ C := by
        rw [← hflat, mem_flatten_iff_inFront]
        exact ⟨k, hk⟩
      have hna : q ∉ added := fun h => hdisj q h hJ
      rw [e9 q hna]
      exact inv.rk k q hk hl
    · rw [hk]
      simp only [List.length_append, List.length_singleton]
      exact e8 q hq (by rw [inv.rk_len]; exact hl)
  · intro k q hk p hp hd
    rw [e1, inFront_concat] at hk
    rw [e1]
    rcases hk with hk | ⟨hk, hq⟩
    · obtain ⟨j, hj, hjp⟩ := inv.pred k q hk p hp hd
      exact ⟨j, hj, (inFront_concat _ _ _ _).2 (Or.inl hjp)⟩
    · have hqN := (hadd_pos q hq).1
      have hz : (processFront prev.length st).1.dominationCount q = 0 := by
        rw [e6 q]
        have := ((e3 q).1 hq).2
        omega
      have hceq := hcnt' q hqN
      rw [hz, Nat.zero_add] at hceq
      have hpJ : p ∈ prev.flatten ++ C :=
        mem_of_countP_eq (fun p => Dominates objs p q) N _ inv.nodup inv.lt hceq p hp hd
      rw [← hflat, mem_flatten_iff_inFront] at hpJ
      obtain ⟨j, hj⟩ := hpJ
      exact ⟨j, by rw [hk]; exact inFront_lt hj, (inFront_concat _ _ _ _).2 (Or.inl hj)⟩
  · intro f hf
    rcases List.mem_append.1 hf with h | h
    · exact inv.nonempty f h
    · rw [List.mem_singleton.1 h]; exact hC
  · rw [e1, List.getElem?_append_left (by simp)]
    exact inv.front0

theorem sortLoop_spec (objs : List (List ℚ)) (N L : Nat) (F0 : List Nat) :
    ∀ (fuel : Nat) (prev : List (List Nat)) (C : List Nat) (st : SortState),
      LoopInv objs N L F0 prev C st → N + 1 ≤ fuel + prev.flatten.length →
      ∃ st' prev', sortLoop fuel prev.length st = some st' ∧
        LoopInv objs N L F0 prev' [] st' := by
  intro fuel
  induction fuel with
  | zero =>
    intro prev C st inv hf
    have := length_le_of_nodup_lt N prev.flatten (List.nodup_append.1 inv.nodup).1
      (fun q hq => inv.lt q (List.mem_append_left _ hq))
    omega
  | succ fuel ih =>
    intro prev C st inv hf
    have hget : st.fronts.getD prev.length [] = C := by
      rw [inv.fronts]; simp
    simp only [sortLoop, hget]
    by_cases hC : C = []
    · subst hC
      exact ⟨st, prev, by simp, inv⟩
    · have hne : C.isEmpty = false := by
        cases C with
        | nil => exact absurd rfl hC
        | cons a l => rfl
      rw [hne]
      simp only [Bool.false_eq_true, if_false]
      have hstep := loopInv_step objs N L F0 prev C st inv hC
      have hlen : (prev ++ [C]).length = prev.length + 1 := by simp
      have hC1 : 1 ≤ C.length := by
        cases C with
        | nil => exact absurd rfl hC
        | cons a l => simp
      have hfl : (prev ++ [C]).flatten.length = prev.flatten.length + C.length := by
        rw [List.flatten_append, List.length_append]; simp
      have := ih (prev ++ [C]) _ _ hstep (by rw [hfl]; omega)
      rw [hlen] at this
      exact this

theorem loopInv_exit (objs : List (List ℚ)) (N : Nat) (ranks0 : List Nat)
    (prev : List (List Nat)) (st : SortState)
    (inv : LoopInv objs N ranks0.length
      ((List.range N).filter (fun p => decide (domCount objs N p = 0))) prev [] st) :
    SortSpec objs N ranks0 prev st.ranks := by
  have hnd : prev.flatten.Nodup := by simpa using inv.nodup
  have hlt : ∀ q ∈ prev.flatten, q < N := fun q hq => inv.lt q (List.mem_append_left _ hq)
  have hall : ∀ q < N, q ∈ prev.flatten := by
    by_contra hcon
    push_neg at hcon
    obtain ⟨q0, hq0, hq0n⟩ := hcon
    have hU : ((Finset.range N).filter (fun q => q ∉ prev.flatten)).Nonempty :=
      ⟨q0, Finset.mem_filter.2 ⟨Finset.mem_range.2 hq0, hq0n⟩⟩
    obtain ⟨q, hq, hmin⟩ := exists_nondominated objs _ hU
    rw [Finset.mem_filter, Finset.mem_range] at hq
    have hdoms : ∀ p < N, Dominates objs p q = true → p ∈ prev.flatten := by
      intro p hp hd
      by_contra hpn
      have := hmin p (Finset.mem_filter.2 ⟨Finset.mem_range.2 hp, hpn⟩)
      rw [hd] at this
      exact absurd this (by simp)
    have hceq := countP_eq_of_mem (fun p => Dominates objs p q) N prev.flatten hnd hlt hdoms
    have hc := inv.cnt q hq.1
    unfold domCount at hc
    have hz : st.dominationCount q = 0 := by omega
    have := (inv.zero q hq.1).2 hz
    rw [List.append_nil] at this
    exact hq.2 this
  have hin : ∀ k q, InFront prev k q ↔ InFront (prev ++ [[]]) k q := by
    intro k q
    rw [inFront_concat]
    simp
  refine ⟨hnd, fun q => ⟨hlt q, hall q⟩, inv.nonempty, ?_, ?_, inv.rk_len, ?_⟩
  · intro q
    have hf0 := inv.front0
    rw [hin]
    unfold InFront
    rw [hf0]
    simp [List.mem_filter]
  · intro k q hk p hp hd
    obtain ⟨j, hj, hjp⟩ := inv.pred k q ((hin k q).1 hk) p hp hd
    exact ⟨j, hj, (hin j p).2 hjp⟩
  · intro k q hk hl
    exact inv.rk k q ((hin k q).1 hk) hl

theorem sort_spec (objs : List (List ℚ)) (fuel N : Nat) (ranks0 : List Nat)
    (hfuel : N < fuel) (hN : N < SIZE_MOD) :
    ∃ fronts ranks, FastNonDominatedSort fuel N ranks0 objs = some (fronts, ranks) ∧
      SortSpec objs N ranks0 fronts ranks := by
  obtain ⟨st, prev, hrun, inv⟩ := sortLoop_spec objs N ranks0.length _ fuel [] _ _
    (loopInv_init objs N hN ranks0) (by simp; omega)
  refine ⟨prev, st.ranks, ?_, loopInv_exit objs N ranks0 prev st inv⟩
  unfold FastNonDominatedSort
  simp only [List.length_nil] at hrun
  rw [hrun, Option.map_some', inv.fronts, List.dropLast_concat]

/-! ## Theorems: what the sort returns -/

theorem inFront_iff_getD (fronts : List (List Nat)) (k q : Nat) :
    InFront fronts k q ↔ q ∈ fronts.getD k [] := by
  unfold InFront
  rw [List.getD_eq_getElem?_getD]
  cases h : fronts[k]? with
  | none => simp
  | some f => simp

theorem inFront_unique (fronts : List (List Nat)) (hnd : fronts.flatten.Nodup) (k k' q : Nat)
    (h : InFront fronts k q) (h' : InFront fronts k' q) : k = k' := by
  induction fronts generalizing k k' with
  | nil => exact absurd (inFront_lt h) (by simp)
  | cons f fs ih =>
    rw [List.flatten_cons, List.nodup_append] at hnd
    obtain ⟨-, hfs, hdis⟩ := hnd
    obtain ⟨a, ha, hqa⟩ := h
    obtain ⟨b, hb, hqb⟩ := h'
    cases k with
    | zero =>
      cases k' with
      | zero => rfl
      | succ j =>
        exfalso
        simp only [List.getElem?_cons_zero, Option.some.injEq] at ha
        simp only [List.getElem?_cons_succ] at hb
        subst ha
        exact hdis hqa (List.mem_flatten.2 ⟨b, List.getElem?_mem hb, hqb⟩)
    | succ i =>
      cases k' with
      | zero =>
        exfalso
        simp only [List.getElem?_cons_zero, Option.some.injEq] at hb
        simp only [List.getElem?_cons_succ] at ha
        subst hb
        exact hdis hqb (List.mem_flatten.2 ⟨a, List.getElem?_mem ha, hqa⟩)
      | succ j =>
        simp only [List.getElem?_cons_succ] at ha hb
        rw [ih hfs i j ⟨a, ha, hqa⟩ ⟨b, hb, hqb⟩]

theorem domCount_eq_zero_iff (objs : List (List ℚ)) (N q : Nat) :
    domCount objs N q = 0 ↔ ∀ p < N, Dominates objs p q = false := by
  unfold domCount
  rw [List.countP_eq_zero]
  constructor
  · intro h p hp
    have := h p (List.mem_range.2 hp)
    simpa using this
  · intro h p hp
    rw [h p (List.mem_range.1 hp)]
    simp

/-- C3 (the code departs from the claim). With `populationSize = 4` and a combined
population of eight objective vectors, as the driver passes after offspring generation, the
sort returns the fronts `[[0, 1], [2], [3]]`: the indices `4 .. 7` appear in no front, although
candidate 4 dominates every one of the first four. -/
theorem FastNonDominatedSort_omits_offspring :
    FastNonDominatedSort 5 4 [0, 0, 0, 0, 0, 0, 0, 0]
        [[1, 2], [2, 1], [2, 2], [3, 3], [1, 1], [0, 3], [3, 0], [2, 2]] =
      some ([[0, 1], [2], [3]], [0, 0, 1, 2, 0, 0, 0, 0]) ∧
    (∀ p < 4, Dominates [[1, 2], [2, 1], [2, 2], [3, 3], [1, 1], [0, 3], [3, 0], [2, 2]] 4 p
      = true) := by
  decide

/-- C4. The sort returns, and a candidate `p` of the sorted population is in front 0 exactly
when the domination count computed for it by the first phase is zero, which holds exactly when
no candidate of the sorted population dominates it. -/
theorem front_zero_iff_dominationCount_zero (calculatedObjectives : List (List ℚ))
    (fuel populationSize : Nat) (ranks : List Nat)
    (hfuel : populationSize < fuel) (hsize : populationSize < SIZE_MOD) :
    ∃ fronts ranksOut,
      FastNonDominatedSort fuel populationSize ranks calculatedObjectives =
        some (fronts, ranksOut) ∧
      ∀ p < populationSize,
        (p ∈ fronts.getD 0 [] ↔
          (initSort populationSize ranks calculatedObjectives).dominationCount p = 0) ∧
        ((initSort populationSize ranks calculatedObjectives).dominationCount p = 0 ↔
          ∀ q < populationSize, Dominates calculatedObjectives q p = false) := by
  obtain ⟨fronts, ranksOut, hrun, spec⟩ :=
    sort_spec calculatedObjectives fuel populationSize ranks hfuel hsize
  refine ⟨fronts, ranksOut, hrun, fun p hp => ?_⟩
  have hc := (initSort_spec calculatedObjectives populationSize hsize ranks).cnt p hp
  rw [hc, ← inFront_iff_getD, spec.front0 p]
  exact ⟨⟨fun h => h.2, fun h => ⟨hp, h⟩⟩, domCount_eq_zero_iff calculatedObjectives _ p⟩

/-- Instance of `front_zero_iff_dominationCount_zero` at a concrete input. -/
theorem front_zero_iff_dominationCount_zero_witness :
    (4 : Nat) < 5 ∧ 4 < SIZE_MOD ∧
    ∃ fronts ranksOut,
      FastNonDominatedSort 5 4 [0, 0, 0, 0] [[1, 2], [2, 1], [2, 2], [3, 3]] =
        some (fronts, ranksOut) ∧
      ∀ p < 4,
        (p ∈ fronts.getD 0 [] ↔
          (initSort 4 [0, 0, 0, 0] [[1, 2], [2, 1], [2, 2], [3, 3]]).dominationCount p = 0) ∧
        ((initSort 4 [0, 0, 0, 0] [[1, 2], [2, 1], [2, 2], [3, 3]]).dominationCount p = 0 ↔
          ∀ q < 4, Dominates [[1, 2], [2, 1], [2, 2], [3, 3]] q p = false) :=
  ⟨by decide, by decide,
    front_zero_iff_dominationCount_zero [[1, 2], [2, 1], [2, 2], [3, 3]] 5 4 [0, 0, 0, 0]
      (by decide) (by decide)⟩

/-- C5. The sort returns, and whenever `p` dominates `q` (both in the sorted population) the
rank written for `p` is strictly below the rank written for `q`, and any front holding `p`
comes strictly before any front holding `q`. -/
theorem rank_lt_of_dominates (calculatedObjectives : List (List ℚ))
    (fuel populationSize : Nat) (ranks : List Nat)
    (hfuel : populationSize < fuel) (hsize : populationSize < SIZE_MOD)
    (hranks : populationSize ≤ ranks.length) :
    ∃ fronts ranksOut,
      FastNonDominatedSort fuel populationSize ranks calculatedObjectives =
        some (fronts, ranksOut) ∧
      ∀ p < populationSize, ∀ q < populationSize,
        Dominates calculatedObjectives p q = true →
          (∃ rp rq, ranksOut[p]? = some rp ∧ ranksOut[q]? = some rq ∧ rp < rq) ∧
          (∀ kp kq, p ∈ fronts.getD kp [] → q ∈ fronts.getD kq [] → kp < kq) := by
  obtain ⟨fronts, ranksOut, hrun, spec⟩ :=
    sort_spec calculatedObjectives fuel populationSize ranks hfuel hsize
  refine ⟨fronts, ranksOut, hrun, fun p hp q hq hd => ?_⟩
  obtain ⟨kq, hkq⟩ := (mem_flatten_iff_inFront fronts q).1 ((spec.mem q).2 hq)
  obtain ⟨kp, hlt, hkp⟩ := spec.pred kq q hkq p hp hd
  refine ⟨⟨kp, kq, spec.rk kp p hkp (by omega), spec.rk kq q hkq (by omega), hlt⟩, ?_⟩
  intro kp' kq' hp' hq'
  rw [← inFront_iff_getD] at hp' hq'
  rw [inFront_unique fronts spec.nodup kp' kp p hp' hkp,
    inFront_unique fronts spec.nodup kq' kq q hq' hkq]
  exact hlt

/-- Instance of `rank_lt_of_dominates` at a concrete input. -/
theorem rank_lt_of_dominates_witness :
    (4 : Nat) < 5 ∧ 4 < SIZE_MOD ∧ 4 ≤ [0, 0, 0, 0].length ∧
    ∃ fronts ranksOut,
      FastNonDominatedSort 5 4 [0, 0, 0, 0] [[1, 2], [2, 1], [2, 2], [3, 3]] =
        some (fronts, ranksOut) ∧
      ∀ p < 4, ∀ q < 4,
        Dominates [[1, 2], [2, 1], [2, 2], [3, 3]] p q = true →
          (∃ rp rq, ranksOut[p]? = some rp ∧ ranksOut[q]? = some rq ∧ rp < rq) ∧
          (∀ kp kq, p ∈ fronts.getD kp [] → q ∈ fronts.getD kq [] → kp < kq) :=
  ⟨by decide, by decide, by decide,
    rank_lt_of_dominates [[1, 2], [2, 1], [2, 2], [3, 3]] 5 4 [0, 0, 0, 0]
      (by decide) (by decide) (by decide)⟩

/-- C6. The sort returns, and for every candidate `p` placed in the front of index `k`,
`ranks[p]` equals `k`. -/
theorem ranks_eq_front_index (calculatedObjectives : List (List ℚ))
    (fuel populationSize : Nat) (ranks : List Nat)
    (hfuel : populationSize < fuel) (hsize : populationSize < SIZE_MOD)
    (hranks : populationSize ≤ ranks.length) :
    ∃ fronts ranksOut,
      FastNonDominatedSort fuel populationSize ranks calculatedObjectives =
        some (fronts, ranksOut) ∧
      ∀ k p, p ∈ fronts.getD k [] → ranksOut[p]? = some k := by
  obtain ⟨fronts, ranksOut, hrun, spec⟩ :=
    sort_spec calculatedObjectives fuel populationSize ranks hfuel hsize
  refine ⟨fronts, ranksOut, hrun, fun k p hp => ?_⟩
  rw [← inFront_iff_getD] at hp
  have hpN : p < populationSize :=
    (spec.mem p).1 ((mem_flatten_iff_inFront fronts p).2 ⟨k, hp⟩)
  exact spec.rk k p hp (by omega)

/-- Instance of `ranks_eq_front_index` at a concrete input. -/
theorem ranks_eq_front_index_witness :
    (4 : Nat) < 5 ∧ 4 < SIZE_MOD ∧ 4 ≤ [7, 7, 7, 7, 7].length ∧
    ∃ fronts ranksOut,
      FastNonDominatedSort 5 4 [7, 7, 7, 7, 7] [[1, 2], [2, 1], [2, 2], [3, 3]] =
        some (fronts, ranksOut) ∧
      ∀ k p, p ∈ fronts.getD k [] → ranksOut[p]? = some k :=
  ⟨by decide, by decide, by decide,
    ranks_eq_front_index [[1, 2], [2, 1], [2, 2], [3, 3]] 5 4 [7, 7, 7, 7, 7]
      (by decide) (by decide) (by decide)⟩

/-! ## Theorems: driver and objective evaluation -/

/-- C7 (the code departs from the claim). The guard of `Optimize` lets population size 10
through, although 10 is not a multiple of 4: no configuration error is raised. -/
theorem Optimize_accepts_population_size_ten :
    Optimize_checkPopulationSize 10 = Except.ok () := by
  rfl

theorem Optimize_checkPopulationSize_error_iff (populationSize : Nat) :
    (∃ msg, Optimize_checkPopulationSize populationSize = Except.error msg) ↔
      (populationSize = 1 ∨ populationSize = 2 ∨ populationSize = 3) := by
  unfold Optimize_checkPopulationSize
  constructor
  · rintro ⟨msg, h⟩
    split at h
    · omega
    · exact absurd h (by simp)
  · intro h
    rw [if_pos (by omega)]
    exact ⟨_, rfl⟩

/-- C8 (the code departs from the claim). With `populationSize = 4` and a combined population
of eight members, `EvaluateObjectives` leaves the entry of member 4 at its zero fill, while
the objective evaluated at member 4 is 5. -/
theorem EvaluateObjectives_skips_offspring :
    EvaluateObjectives 4
        ([![1], ![2], ![3], ![4], ![5], ![6], ![7], ![8]] : List (Candidate 1))
        [fun x => x 0] [[0], [0], [0], [0], [0], [0], [0], [0]] =
      [[1], [2], [3], [4], [0], [0], [0], [0]] ∧
    (fun x : Candidate 1 => x 0)
        (([![1], ![2], ![3], ![4], ![5], ![6], ![7], ![8]] : List (Candidate 1)).getD 4
          (fun _ => 0)) = 5 := by
  constructor
  · rfl
  · rfl

/-! ## Theorems: variation operators -/

theorem clampBounds_mem {n : Nat} (x lowerBound upperBound : Candidate n)
    (hb : ∀ i, lowerBound i ≤ upperBound i) (i : Fin n) :
    lowerBound i ≤ clampBounds x lowerBound upperBound i ∧
      clampBounds x lowerBound upperBound i ≤ upperBound i := by
  unfold clampBounds
  exact ⟨le_min (le_max_right _ _) (hb i), min_le_right _ _⟩

theorem crossoverInherit_cases (parent first second us2 us3 : ℚ) :
    crossoverInherit parent first second us2 us3 = parent ∨
    crossoverInherit parent first second us2 us3 = first ∨
    crossoverInherit parent first second us2 us3 = second := by
  have h3 : decide (us3 > 1 / 2) = !decide (us3 ≤ 1 / 2) := by
    simp only [gt_iff_lt, ← not_le, decide_not]
  simp only [crossoverInherit, h3]
  generalize decide (us2 ≤ 1 / 2) = b2
  generalize decide (us3 ≤ 1 / 2) = b3
  by_cases hp : parent = 0 <;> by_cases hf : first = 0 <;> cases b2 <;> cases b3 <;>
    simp [maskVal, hp, hf]

theorem crossoverBlend_mem {n : Nat} (pow : ℚ → ℚ → ℚ) (eta : ℚ) (us : Candidate n)
    (parentA parentB lowerBound upperBound : Candidate n)
    (hb : ∀ i, lowerBound i ≤ upperBound i) (i : Fin n) :
    (lowerBound i ≤ (crossoverBlend pow eta us parentA parentB lowerBound upperBound).1 i ∧
      (crossoverBlend pow eta us parentA parentB lowerBound upperBound).1 i ≤ upperBound i) ∧
    (lowerBound i ≤ (crossoverBlend pow eta us parentA parentB lowerBound upperBound).2 i ∧
      (crossoverBlend pow eta us parentA parentB lowerBound upperBound).2 i ≤ upperBound i) := by
  simp only [crossoverBlend]
  exact ⟨clampBounds_mem _ _ _ hb i, clampBounds_mem _ _ _ hb i⟩

/-- C9. When both parents lie within `[lowerBound, upperBound]` and
`lowerBound <= upperBound`, every variable of both children returned by `Crossover` lies within
`[lowerBound, upperBound]`, whatever the random draws. -/
theorem Crossover_within_bounds {n : Nat} (pow : ℚ → ℚ → ℚ) (eta : ℚ) (g : Draws) (pos : Nat)
    (parentA parentB lowerBound upperBound : Candidate n)
    (hb : ∀ i, lowerBound i ≤ upperBound i)
    (hA : ∀ i, lowerBound i ≤ parentA i ∧ parentA i ≤ upperBound i)
    (hB : ∀ i, lowerBound i ≤ parentB i ∧ parentB i ≤ upperBound i) (i : Fin n) :
    (lowerBound i ≤ (Crossover pow eta g pos parentA parentB lowerBound upperBound).1 i ∧
      (Crossover pow eta g pos parentA parentB lowerBound upperBound).1 i ≤ upperBound i) ∧
    (lowerBound i ≤ (Crossover pow eta g pos parentA parentB lowerBound upperBound).2.1 i ∧
      (Crossover pow eta g pos parentA parentB lowerBound upperBound).2.1 i ≤ upperBound i) := by
  unfold Crossover
  split
  · exact ⟨hA i, hB i⟩
  · dsimp only
    obtain ⟨hc1, hc2⟩ := crossoverBlend_mem pow eta (fun i => g.randu (pos + i)) parentA parentB
      lowerBound upperBound hb i
    constructor
    · rcases crossoverInherit_cases (parentA i)
        ((crossoverBlend pow eta (fun i => g.randu (pos + i)) parentA parentB
          lowerBound upperBound).1 i)
        ((crossoverBlend pow eta (fun i => g.randu (pos + i)) parentA parentB
          lowerBound upperBound).2 i)
        (g.randu (pos + n + i)) (g.randu (pos + 2 * n + i)) with h | h | h
      · rw [h]; exact hA i
      · rw [h]; exact hc1
      · rw [h]; exact hc2
    · rcases crossoverInherit_cases (parentB i)
        ((crossoverBlend pow eta (fun i => g.randu (pos + i)) parentA parentB
          lowerBound upperBound).2 i)
        ((crossoverBlend pow eta (fun i => g.randu (pos + i)) parentA parentB
          lowerBound upperBound).1 i)
        (g.randu (pos + n + i)) (g.randu (pos + 2 * n + i)) with h | h | h
      · rw [h]; exact hB i
      · rw [h]; exact hc2
      · rw [h]; exact hc1

/-- Instance of `Crossover_within_bounds` at a concrete input. -/
theorem Crossover_within_bounds_witness :
    (∀ i : Fin 2, (![0, 0] : Candidate 2) i ≤ (![1, 1] : Candidate 2) i) ∧
    (∀ i : Fin 2, (![0, 0] : Candidate 2) i ≤ (![1, 1] : Candidate 2) i ∧
      (![1, 1] : Candidate 2) i ≤ (![1, 1] : Candidate 2) i) ∧
    (∀ i : Fin 2, (![0, 0] : Candidate 2) i ≤ (![0, 0] : Candidate 2) i ∧
      (![0, 0] : Candidate 2) i ≤ (![1, 1] : Candidate 2) i) ∧
    ((![0, 0] : Candidate 2) 0 ≤
        (Crossover (fun x _ => x) 20 ⟨fun _ => 1, fun _ => 0⟩ 0 ![1, 1] ![0, 0] ![0, 0]
          ![1, 1]).1 0 ∧
      (Crossover (fun x _ => x) 20 ⟨fun _ => 1, fun _ => 0⟩ 0 ![1, 1] ![0, 0] ![0, 0]
          ![1, 1]).1 0 ≤ (![1, 1] : Candidate 2) 0) ∧
    ((![0, 0] : Candidate 2) 0 ≤
        (Crossover (fun x _ => x) 20 ⟨fun _ => 1, fun _ => 0⟩ 0 ![1, 1] ![0, 0] ![0, 0]
          ![1, 1]).2.1 0 ∧
      (Crossover (fun x _ => x) 20 ⟨fun _ => 1, fun _ => 0⟩ 0 ![1, 1] ![0, 0] ![0, 0]
          ![1, 1]).2.1 0 ≤ (![1, 1] : Candidate 2) 0) :=
  ⟨by decide, by decide, by decide,
    Crossover_within_bounds (fun x _ => x) 20 ⟨fun _ => 1, fun _ => 0⟩ 0 ![1, 1] ![0, 0]
      ![0, 0] ![1, 1] (by decide) (by decide) (by decide) 0⟩

theorem Mutate_mem {n : Nat} (pow : ℚ → ℚ → ℚ) (distributionIndex : ℚ) (g : Draws) (pos : Nat)
    (candidate : Candidate n) (mutationRate : ℚ) (lowerBound upperBound : Candidate n)
    (hb : ∀ i, lowerBound i ≤ upperBound i) :
    InBounds lowerBound upperBound
      (Mutate pow distributionIndex g pos candidate mutationRate lowerBound upperBound).1 := by
  intro i
  simp only [Mutate]
  exact clampBounds_mem _ _ _ hb i

theorem tournamentLoop_mem {n : Nat} (pow : ℚ → ℚ → ℚ) (cfg : Params) (g : Draws)
    (population : List (Candidate n)) (lowerBound upperBound : Candidate n)
    (hb : ∀ i, lowerBound i ≤ upperBound i) :
    ∀ (m : Nat) (children : List (Candidate n)) (pos : Nat),
      population.length - children.length = m →
      (∀ c ∈ children, InBounds lowerBound upperBound c) →
      ∀ c ∈ (tournamentLoop pow cfg g population lowerBound upperBound children pos).1,
        InBounds lowerBound upperBound c := by
  intro m
  induction m using Nat.strong_induction_on with
  | _ m ih =>
    intro children pos hm hch
    rw [tournamentLoop]
    split
    · rename_i hlt
      dsimp only
      refine ih _ ?_ _ _ rfl ?_
      · simp only [List.length_append, List.length_cons, List.length_nil]
        omega
      · intro c hc
        rcases List.mem_append.1 hc with h | h
        · exact hch c h
        · simp only [List.mem_cons, List.mem_singleton, List.not_mem_nil, or_false] at h
          rcases h with rfl | rfl
          · exact Mutate_mem _ _ _ _ _ _ _ _ hb
          · exact Mutate_mem _ _ _ _ _ _ _ _ hb
    · exact hch

/-- C10. With `lowerBound <= upperBound`, every variable of the candidate returned by `Mutate`
lies within `[lowerBound, upperBound]`, for every candidate, mutation rate and random draws;
and every child appended by `BinaryTournamentSelection` lies within the bounds. -/
theorem Mutate_within_bounds {n : Nat} (pow : ℚ → ℚ → ℚ) (g : Draws)
    (lowerBound upperBound : Candidate n) (hb : ∀ i, lowerBound i ≤ upperBound i) :
    (∀ (distributionIndex : ℚ) (pos : Nat) (candidate : Candidate n) (mutationRate : ℚ)
        (i : Fin n),
      lowerBound i ≤
          (Mutate pow distributionIndex g pos candidate mutationRate lowerBound upperBound).1 i ∧
        (Mutate pow distributionIndex g pos candidate mutationRate lowerBound upperBound).1 i
          ≤ upperBound i) ∧
    (∀ (cfg : Params) (pos : Nat) (population : List (Candidate n)),
      ∀ c ∈ (BinaryTournamentSelection pow cfg g pos population lowerBound upperBound).1.drop
          population.length,
        ∀ i, lowerBound i ≤ c i ∧ c i ≤ upperBound i) := by
  constructor
  · intro distributionIndex pos candidate mutationRate i
    exact Mutate_mem pow distributionIndex g pos candidate mutationRate lowerBound upperBound hb i
  · intro cfg pos population c hc
    simp only [BinaryTournamentSelection, List.drop_left] at hc
    exact tournamentLoop_mem pow cfg g population lowerBound upperBound hb _ [] pos rfl
      (by intro c hc; exact absurd hc (List.not_mem_nil c)) c hc

/-- Instance of `Mutate_within_bounds` at a concrete input. -/
theorem Mutate_within_bounds_witness :
    (∀ i : Fin 2, (![0, 0] : Candidate 2) i ≤ (![1, 1] : Candidate 2) i) ∧
    ((∀ (distributionIndex : ℚ) (pos : Nat) (candidate : Candidate 2) (mutationRate : ℚ)
        (i : Fin 2),
      (![0, 0] : Candidate 2) i ≤
          (Mutate (fun x _ => x) distributionIndex ⟨fun _ => 0, fun _ => 0⟩ pos candidate
            mutationRate ![0, 0] ![1, 1]).1 i ∧
        (Mutate (fun x _ => x) distributionIndex ⟨fun _ => 0, fun _ => 0⟩ pos candidate
            mutationRate ![0, 0] ![1, 1]).1 i ≤ (![1, 1] : Candidate 2) i) ∧
    (∀ (cfg : Params) (pos : Nat) (population : List (Candidate 2)),
      ∀ c ∈ (BinaryTournamentSelection (fun x _ => x) cfg ⟨fun _ => 0, fun _ => 0⟩ pos
          population ![0, 0] ![1, 1]).1.drop population.length,
        ∀ i, (![0, 0] : Candidate 2) i ≤ c i ∧ c i ≤ (![1, 1] : Candidate 2) i)) :=
  ⟨by decide,
    Mutate_within_bounds (fun x _ => x) ⟨fun _ => 0, fun _ => 0⟩ ![0, 0] ![1, 1] (by decide)⟩

/-! ## Theorems: crossover degeneracy, mutation at rate zero, parent indices -/

/-- C11. When the parents differ by less than the threshold `1e-14` in absolute value on
every variable, `Crossover` returns `childA = parentA` and `childB = parentB`, whatever the
random draws. -/
theorem Crossover_degenerate {n : Nat} (pow : ℚ → ℚ → ℚ) (eta : ℚ) (g : Draws) (pos : Nat)
    (parentA parentB lowerBound upperBound : Candidate n)
    (h : ∀ i, |parentA i - parentB i| < 1e-14) :
    (Crossover pow eta g pos parentA parentB lowerBound upperBound).1 = parentA ∧
    (Crossover pow eta g pos parentA parentB lowerBound upperBound).2.1 = parentB := by
  unfold Crossover
  split
  · exact ⟨rfl, rfl⟩
  · rename_i hcount
    have hnone : ∀ i : Fin n, False := by
      intro i
      apply hcount
      intro h0
      rw [List.countP_eq_zero] at h0
      have := h0 i (List.mem_finRange i)
      simp only [decide_eq_true_eq] at this
      exact this (abs_lt.1 (h i)).2
    exact ⟨funext fun i => (hnone i).elim, funext fun i => (hnone i).elim⟩

/-- Instance of `Crossover_degenerate` at two equal parents. -/
theorem Crossover_degenerate_witness :
    (∀ i : Fin 2, |(![1, 2] : Candidate 2) i - (![1, 2] : Candidate 2) i| < 1e-14) ∧
    ((Crossover (fun x _ => x) 20 ⟨fun _ => 1, fun _ => 0⟩ 0 ![1, 2] ![1, 2] ![0, 0]
        ![3, 3]).1 = ![1, 2] ∧
      (Crossover (fun x _ => x) 20 ⟨fun _ => 1, fun _ => 0⟩ 0 ![1, 2] ![1, 2] ![0, 0]
        ![3, 3]).2.1 = ![1, 2]) :=
  ⟨by intro i; simp; norm_num,
    Crossover_degenerate (fun x _ => x) 20 ⟨fun _ => 1, fun _ => 0⟩ 0 ![1, 2] ![1, 2] ![0, 0]
      ![3, 3] (by intro i; simp; norm_num)⟩

theorem clampBounds_id {n : Nat} (x lowerBound upperBound : Candidate n)
    (hx : ∀ i, lowerBound i ≤ x i ∧ x i ≤ upperBound i) :
    clampBounds x lowerBound upperBound = x := by
  funext i
  unfold clampBounds
  rw [max_eq_left (hx i).1, min_eq_left (hx i).2]

theorem mutate_fold_skip {n : Nat} (pow : ℚ → ℚ → ℚ) (distributionIndex mutationRate : ℚ)
    (g : Draws) (lowerBound upperBound : Candidate n) (l : List (Fin n))
    (candidate : Candidate n) (pos : Nat)
    (hdraw : ∀ k < l.length, mutationRate < g.randu (pos + k)) :
    l.foldl (mutateGene pow distributionIndex mutationRate g lowerBound upperBound)
      (candidate, pos) = (candidate, pos + l.length) := by
  induction l generalizing pos with
  | nil => rfl
  | cons a l ih =>
    have h0 : mutationRate < g.randu pos := by
      have := hdraw 0 (by simp)
      simpa using this
    have hs : mutateGene pow distributionIndex mutationRate g lowerBound upperBound
        (candidate, pos) a = (candidate, pos + 1) := by
      simp only [mutateGene, gt_iff_lt, h0, if_true]
    rw [List.foldl_cons, hs, ih (pos + 1)]
    · simp only [List.length_cons, Prod.mk.injEq, true_and]
      omega
    · intro k hk
      have := hdraw (k + 1) (by simp; omega)
      rwa [show pos + 1 + k = pos + (k + 1) by omega]

/-- C12 (as stated it fails). A decision draw equal to 0 is not greater than the mutation
rate 0, so the gene is perturbed: with the bounds `[0, 1]`, the candidate `1` and every draw
equal to 0, `Mutate` at rate 0 returns the candidate `0`. The distribution index is 0, so
that both exponents handed to `pow` are 1 and `pow x 1 = x`. -/
theorem Mutate_rate_zero_changes_candidate :
    (∀ i : Fin 1, (![0] : Candidate 1) i ≤ (![1] : Candidate 1) i ∧
      (![1] : Candidate 1) i ≤ (![1] : Candidate 1) i) ∧
    (Mutate (fun x _ => x) 0 ⟨fun _ => 0, fun _ => 0⟩ 0 (![1] : Candidate 1) 0 ![0] ![1]).1 0
      = 0 ∧
    (Mutate (fun x _ => x) 0 ⟨fun _ => 0, fun _ => 0⟩ 0 (![1] : Candidate 1) 0 ![0] ![1]).1
      ≠ ![1] := by
  have hval : (Mutate (fun x _ => x) 0 ⟨fun _ => 0, fun _ => 0⟩ 0 (![1] : Candidate 1) 0
      ![0] ![1]).1 0 = 0 := by
    simp [Mutate, mutateGene, clampBounds, List.finRange]
  refine ⟨by intro i; simp, hval, ?_⟩
  intro h
  rw [h] at hval
  simp at hval

/-- C12 (amended). For a candidate within the bounds, `Mutate` called with mutation rate 0
returns the candidate unchanged whenever each of the per-gene decision draws is greater
than 0. -/
theorem Mutate_rate_zero_unchanged {n : Nat} (pow : ℚ → ℚ → ℚ) (distributionIndex : ℚ)
    (g : Draws) (pos : Nat) (candidate lowerBound upperBound : Candidate n)
    (hdraw : ∀ k < n, 0 < g.randu (pos + k))
    (hc : ∀ i, lowerBound i ≤ candidate i ∧ candidate i ≤ upperBound i) :
    (Mutate pow distributionIndex g pos candidate 0 lowerBound upperBound).1 = candidate := by
  simp only [Mutate]
  rw [mutate_fold_skip pow distributionIndex 0 g lowerBound upperBound (List.finRange n)
    candidate pos (by simpa using hdraw)]
  exact clampBounds_id candidate lowerBound upperBound hc

/-- Instance of `Mutate_rate_zero_unchanged` with every draw equal to 1. -/
theorem Mutate_rate_zero_unchanged_witness :
    (∀ k < 1, 0 < (⟨fun _ => 1, fun _ => 0⟩ : Draws).randu (0 + k)) ∧
    (∀ i : Fin 1, (![0] : Candidate 1) i ≤ (![1] : Candidate 1) i ∧
      (![1] : Candidate 1) i ≤ (![1] : Candidate 1) i) ∧
    (Mutate (fun x _ => x) 0 ⟨fun _ => 1, fun _ => 0⟩ 0 (![1] : Candidate 1) 0 ![0] ![1]).1
      = ![1] :=
  ⟨by intro k _; simp, by intro i; simp,
    Mutate_rate_zero_unchanged (fun x _ => x) 0 ⟨fun _ => 1, fun _ => 0⟩ 0 ![1] ![0] ![1]
      (by intro k _; simp) (by intro i; simp)⟩

/-- C20. For `populationSize >= 2` and raw draws in `[0, populationSize - 1]`, the two parent
indices after the collision handling are distinct and lie in `[0, populationSize - 1]`;
`indexA` is the raw draw, `indexB` is the raw draw when there is no collision, and on a
collision it is shifted by `+1`, or by `-1` when it is the last index. -/
theorem pickParents_distinct (populationSize rawA rawB : Nat) (h2 : 2 ≤ populationSize)
    (hsize : populationSize < SIZE_MOD) (hA : rawA ≤ populationSize - 1)
    (hB : rawB ≤ populationSize - 1) :
    (pickParents populationSize rawA rawB).1 ≠ (pickParents populationSize rawA rawB).2 ∧
    (pickParents populationSize rawA rawB).1 ≤ populationSize - 1 ∧
    (pickParents populationSize rawA rawB).2 ≤ populationSize - 1 ∧
    (pickParents populationSize rawA rawB).1 = rawA ∧
    (rawA ≠ rawB → (pickParents populationSize rawA rawB).2 = rawB) ∧
    (rawA = rawB → rawB < populationSize - 1 →
      (pickParents populationSize rawA rawB).2 = rawB + 1) ∧
    (rawA = rawB → rawB = populationSize - 1 →
      (pickParents populationSize rawA rawB).2 = rawB - 1) := by
  have hdecP : sizeDec populationSize = populationSize - 1 := sizeDec_pos _ (by omega)
  by_cases hAB : rawA = rawB
  · by_cases hlast : rawB < populationSize - 1
    · have hmod : (rawB + 1) % SIZE_MOD = rawB + 1 := Nat.mod_eq_of_lt (by omega)
      have hp : pickParents populationSize rawA rawB = (rawA, rawB + 1) := by
        simp only [pickParents, hdecP, hAB, hlast, if_true, hmod]
      rw [hp]
      dsimp only
      exact ⟨by omega, hA, by omega, rfl, fun h => absurd hAB h, fun _ _ => rfl,
        fun _ h => by omega⟩
    · have hpos : 0 < rawB := by omega
      have hdecB : sizeDec rawB = rawB - 1 := sizeDec_pos _ hpos
      have hp : pickParents populationSize rawA rawB = (rawA, rawB - 1) := by
        simp only [pickParents, hdecP, hAB, hlast, if_true, if_false, hdecB]
      rw [hp]
      dsimp only
      exact ⟨by omega, hA, by omega, rfl, fun h => absurd hAB h, fun _ h => absurd h hlast,
        fun _ _ => rfl⟩
  · have hp : pickParents populationSize rawA rawB = (rawA, rawB) := by
      simp only [pickParents, hAB, if_false]
    rw [hp]
    dsimp only
    exact ⟨hAB, hA, hB, rfl, fun _ => rfl, fun h => absurd h hAB, fun h => absurd h hAB⟩

/-- Instance of `pickParents_distinct`: a collision on the last index of a population of 4. -/
theorem pickParents_distinct_witness :
    (2 : Nat) ≤ 4 ∧ 4 < SIZE_MOD ∧ 3 ≤ 4 - 1 ∧ 3 ≤ 4 - 1 ∧
    ((pickParents 4 3 3).1 ≠ (pickParents 4 3 3).2 ∧
    (pickParents 4 3 3).1 ≤ 4 - 1 ∧
    (pickParents 4 3 3).2 ≤ 4 - 1 ∧
    (pickParents 4 3 3).1 = 3 ∧
    (3 ≠ 3 → (pickParents 4 3 3).2 = 3) ∧
    (3 = 3 → 3 < 4 - 1 → (pickParents 4 3 3).2 = 3 + 1) ∧
    (3 = 3 → 3 = 4 - 1 → (pickParents 4 3 3).2 = 3 - 1)) :=
  ⟨by decide, by decide, by decide, by decide,
    pickParents_distinct 4 3 3 (by decide) (by decide) (by decide) (by decide)⟩

/-! ## Theorems: normalization -/

theorem foldl_max_spec {α : Type} (f : α → ℚ) (rest : List α) (a : ℚ) :
    a ≤ rest.foldl (fun m x => max m (f x)) a ∧
    (∀ x ∈ rest, f x ≤ rest.foldl (fun m x => max m (f x)) a) ∧
    (rest.foldl (fun m x => max m (f x)) a = a ∨
      ∃ x ∈ rest, rest.foldl (fun m x => max m (f x)) a = f x) := by
  induction rest generalizing a with
  | nil => simp
  | cons y ys ih =>
    rw [List.foldl_cons]
    obtain ⟨h1, h2, h3⟩ := ih (max a (f y))
    refine ⟨le_trans (le_max_left _ _) h1, ?_, ?_⟩
    · intro x hx
      rcases List.mem_cons.1 hx with rfl | hx
      · exact le_trans (le_max_right _ _) h1
      · exact h2 x hx
    · rcases h3 with h3 | ⟨x, hx, h3⟩
      · rcases max_choice a (f y) with hm | hm
        · left; rw [h3, hm]
        · right; exact ⟨y, List.mem_cons_self y ys, by rw [h3, hm]⟩
      · right; exact ⟨x, List.mem_cons_of_mem y hx, h3⟩

theorem vectorized_getD (numObjectives : Nat) (objs : List (List ℚ)) (p k : Nat)
    (hk : k < numObjectives) :
    ((List.range numObjectives).map (objAt objs p)).getD k 0 = objAt objs p k := by
  rw [List.getD_eq_getElem?_getD, List.getElem?_map, List.getElem?_range hk]
  rfl

theorem rowMaxima_spec (numObjectives : Nat) (objs : List (List ℚ)) (front : List Nat)
    (h : front ≠ [] ∨ numObjectives = 0) :
    IsFrontMaxima numObjectives objs front
      (rowMaxima numObjectives (vectorizeObjectives numObjectives objs front)) := by
  cases front with
  | nil =>
    rcases h with h | h
    · exact absurd rfl h
    · subst h
      refine ⟨rfl, fun k hk => absurd hk (by omega)⟩
  | cons p rest =>
    simp only [vectorizeObjectives, List.map_cons, rowMaxima]
    refine ⟨by simp, fun k hk => ?_⟩
    refine ⟨_, by rw [List.getElem?_map, List.getElem?_range hk]; rfl, ?_, ?_⟩
    · beta_reduce
      obtain ⟨h1, h2, -⟩ := foldl_max_spec (fun col : List ℚ => col.getD k 0)
        (rest.map (fun p => (List.range numObjectives).map (objAt objs p)))
        (((List.range numObjectives).map (objAt objs p)).getD k 0)
      intro q hq
      rcases List.mem_cons.1 hq with rfl | hq
      · exact le_of_eq_of_le (vectorized_getD numObjectives objs q k hk).symm h1
      · have := h2 _ (List.mem_map.2 ⟨q, hq, rfl⟩)
        rw [vectorized_getD numObjectives objs q k hk] at this
        exact this
    · beta_reduce
      obtain ⟨-, -, h3⟩ := foldl_max_spec (fun col : List ℚ => col.getD k 0)
        (rest.map (fun p => (List.range numObjectives).map (objAt objs p)))
        (((List.range numObjectives).map (objAt objs p)).getD k 0)
      rcases h3 with h3 | ⟨col, hcol, h3⟩
      · exact ⟨p, List.mem_cons_self p rest, by
          rw [h3, vectorized_getD numObjectives objs p k hk]⟩
      · obtain ⟨q, hq, rfl⟩ := List.mem_map.1 hcol
        exact ⟨q, List.mem_cons_of_mem p hq, by
          rw [h3, vectorized_getD numObjectives objs q k hk]⟩

/-- C13. For a non-empty front with fewer members than objectives, `NormalizeFront` returns a
normalization vector that holds, per objective, the maximum of that objective over the
members of the front. -/
theorem NormalizeFront_small_front (solve : List (List ℚ) → List ℚ → SolveResult)
    (numObjectives : Nat) (calculatedObjectives : List (List ℚ)) (front extreme : List Nat)
    (hne : front ≠ []) (hlt : front.length < numObjectives) :
    ∃ normalization,
      NormalizeFront solve numObjectives calculatedObjectives front extreme =
        Except.ok normalization ∧
      normalization.length = numObjectives ∧
      ∀ k < numObjectives, ∃ v, normalization[k]? = some v ∧
        (∀ p ∈ front, objAt calculatedObjectives p k ≤ v) ∧
        (∃ p ∈ front, v = objAt calculatedObjectives p k) := by
  refine ⟨rowMaxima numObjectives (vectorizeObjectives numObjectives calculatedObjectives front),
    ?_, rowMaxima_spec numObjectives calculatedObjectives front (Or.inl hne)⟩
  simp only [NormalizeFront, hlt, if_true]

/-- Instance of `NormalizeFront_small_front`: one member, two objectives. -/
theorem NormalizeFront_small_front_witness :
    ([0] : List Nat) ≠ [] ∧ ([0] : List Nat).length < 2 ∧
    ∃ normalization,
      NormalizeFront (fun _ _ => SolveResult.threw) 2 [[3, 1]] [0] [0, 0] =
        Except.ok normalization ∧
      normalization.length = 2 ∧
      ∀ k < 2, ∃ v, normalization[k]? = some v ∧
        (∀ p ∈ ([0] : List Nat), objAt [[3, 1]] p k ≤ v) ∧
        (∃ p ∈ ([0] : List Nat), v = objAt [[3, 1]] p k) :=
  ⟨by decide, by decide,
    NormalizeFront_small_front (fun _ _ => SolveResult.threw) 2 [[3, 1]] [0] [0, 0]
      (by decide) (by decide)⟩

theorem dedup_length_ne_of_not_nodup (l : List Nat) (h : ¬ l.Nodup) :
    l.length ≠ l.dedup.length := by
  intro hlen
  apply h
  have hsub : l.dedup.Sublist l := List.dedup_sublist l
  have heq : l.dedup = l := hsub.eq_of_length hlen.symm
  rw [← heq]
  exact List.nodup_dedup l

/-- C14. For a front with at least as many members as objectives, when two of the
extreme-point indices coincide, `NormalizeFront` returns the per-objective maxima over the
front whatever `arma::solve` would do, also when it would throw: the solve is not reached. -/
theorem NormalizeFront_duplicate_extreme (numObjectives : Nat)
    (calculatedObjectives : List (List ℚ)) (front extreme : List Nat)
    (hge : numObjectives ≤ front.length) (hdup : ¬ extreme.Nodup) :
    ∃ normalization,
      (∀ solve : List (List ℚ) → List ℚ → SolveResult,
        NormalizeFront solve numObjectives calculatedObjectives front extreme =
          Except.ok normalization) ∧
      normalization.length = numObjectives ∧
      ∀ k < numObjectives, ∃ v, normalization[k]? = some v ∧
        (∀ p ∈ front, objAt calculatedObjectives p k ≤ v) ∧
        (∃ p ∈ front, v = objAt calculatedObjectives p k) := by
  have hfront : front ≠ [] ∨ numObjectives = 0 := by
    cases front with
    | nil => right; simpa using hge
    | cons p rest => left; simp
  refine ⟨rowMaxima numObjectives (vectorizeObjectives numObjectives calculatedObjectives front),
    ?_, rowMaxima_spec numObjectives calculatedObjectives front hfront⟩
  intro solve
  simp only [NormalizeFront, not_lt.mpr hge, if_false,
    dedup_length_ne_of_not_nodup extreme hdup, ne_eq, not_false_eq_true, if_true]

/-- Instance of `NormalizeFront_duplicate_extreme`: both extreme indices are 0. -/
theorem NormalizeFront_duplicate_extreme_witness :
    2 ≤ ([0, 1] : List Nat).length ∧ ¬ ([0, 0] : List Nat).Nodup ∧
    ∃ normalization,
      (∀ solve : List (List ℚ) → List ℚ → SolveResult,
        NormalizeFront solve 2 [[3, 1], [2, 5]] [0, 1] [0, 0] = Except.ok normalization) ∧
      normalization.length = 2 ∧
      ∀ k < 2, ∃ v, normalization[k]? = some v ∧
        (∀ p ∈ ([0, 1] : List Nat), objAt [[3, 1], [2, 5]] p k ≤ v) ∧
        (∃ p ∈ ([0, 1] : List Nat), v = objAt [[3, 1], [2, 5]] p k) :=
  ⟨by decide, by decide,
    NormalizeFront_duplicate_extreme 2 [[3, 1], [2, 5]] [0, 1] [0, 0] (by decide) (by decide)⟩

/-- C15 (the code departs from the claim). On the two early-return paths the zero entries
stay: a front of one member with objective vector `(0, 1)` and two objectives gives the
normalization vector `(0, 1)`, and two members `(0, 1)`, `(0, 2)` with coinciding extreme
indices give `(0, 2)`, whatever the solver; through the last line of the function the same
maxima come out as `(1, 2)`. -/
theorem NormalizeFront_keeps_zero_entry :
    (∀ solve : List (List ℚ) → List ℚ → SolveResult,
      NormalizeFront solve 2 [[0, 1]] [0] [0] = Except.ok [0, 1]) ∧
    (∀ solve : List (List ℚ) → List ℚ → SolveResult,
      NormalizeFront solve 2 [[0, 1], [0, 2]] [0, 1] [0, 0] = Except.ok [0, 2]) ∧
    NormalizeFront (fun _ _ => SolveResult.nonFinite) 2 [[0, 1], [0, 2]] [0, 1] [0, 1] =
      Except.ok [1, 2] := by
  refine ⟨fun solve => ?_, fun solve => ?_, ?_⟩
  · rfl
  · rfl
  · simp [NormalizeFront, vectorizeObjectives, rowMaxima, replaceZeros, objAt, List.range,
      List.range.loop]

/-! ## Theorems: distance to a line -/

theorem dot_self_eq_zero {m : Nat} (d : Fin m → ℚ) : dot d d = 0 ↔ ∀ k, d k = 0 := by
  unfold dot
  rw [Finset.sum_eq_zero_iff_of_nonneg (fun k _ => mul_self_nonneg (d k))]
  constructor
  · intro h k
    exact mul_self_eq_zero.1 (h k (Finset.mem_univ k))
  · intro h k _
    rw [h k, mul_zero]

theorem dot_smul_left {m : Nat} (s : ℚ) (d : Fin m → ℚ) :
    dot (fun k => s * d k) d = s * dot d d := by
  unfold dot
  rw [Finset.mul_sum]
  exact Finset.sum_congr rfl (fun k _ => by ring)

theorem sum_sq_eq_dot {m : Nat} (w : Fin m → ℚ) : ∑ k, (w k) ^ 2 = dot w w := by
  unfold dot
  exact Finset.sum_congr rfl (fun k _ => by ring)

/-- C18. For `pointA != pointB`, `PointToLineDistance` returns one value per front member, in
front order; with `d = pointB - pointA` and `v` the member's objective vector minus `pointA`,
the value is the squared length `w·w` of `w = v - ((v·d)/(d·d))·d`; it is non-negative, and it
is 0 exactly when the member's objective vector lies on the line through `pointA` and
`pointB`. -/
theorem PointToLineDistance_spec {m : Nat} (calculatedObjectives : List (List ℚ))
    (front : List Nat) (pointA pointB : Fin m → ℚ) (hAB : pointA ≠ pointB) :
    (PointToLineDistance calculatedObjectives front pointA pointB).length = front.length ∧
    ∀ (i ind : Nat), front[i]? = some ind →
      ∃ dist, (PointToLineDistance calculatedObjectives front pointA pointB)[i]? = some dist ∧
        dist =
          dot (fun k => (objAt calculatedObjectives ind k - pointA k) -
              (dot (fun k => objAt calculatedObjectives ind k - pointA k)
                  (fun k => pointB k - pointA k) /
                dot (fun k => pointB k - pointA k) (fun k => pointB k - pointA k)) *
                (pointB k - pointA k))
            (fun k => (objAt calculatedObjectives ind k - pointA k) -
              (dot (fun k => objAt calculatedObjectives ind k - pointA k)
                  (fun k => pointB k - pointA k) /
                dot (fun k => pointB k - pointA k) (fun k => pointB k - pointA k)) *
                (pointB k - pointA k)) ∧
        0 ≤ dist ∧
        (dist = 0 ↔ ∃ s : ℚ, ∀ k : Fin m,
          objAt calculatedObjectives ind k = pointA k + s * (pointB k - pointA k)) := by
  refine ⟨by simp [PointToLineDistance], fun i ind hi => ?_⟩
  have hdd : dot (fun k => pointB k - pointA k) (fun k => pointB k - pointA k) ≠ 0 := by
    intro h0
    apply hAB
    funext k
    have := (dot_self_eq_zero _).1 h0 k
    simp only at this
    linarith
  refine ⟨_, by simp only [PointToLineDistance, List.getElem?_map, hi, Option.map_some'],
    sum_sq_eq_dot _, Finset.sum_nonneg (fun k _ => sq_nonneg _), ?_⟩
  rw [sum_sq_eq_dot, dot_self_eq_zero]
  constructor
  · intro h
    refine ⟨dot (fun k : Fin m => objAt calculatedObjectives ind k - pointA k)
      (fun k => pointB k - pointA k) /
      dot (fun k => pointB k - pointA k) (fun k => pointB k - pointA k), fun k => ?_⟩
    have := h k
    simp only at this
    linarith
  · rintro ⟨s, hs⟩ k
    have hv : (fun k : Fin m => objAt calculatedObjectives ind k - pointA k) =
        fun k => s * (pointB k - pointA k) := by
      funext j
      rw [hs j]
      ring
    simp only [hv]
    rw [dot_smul_left s (fun k => pointB k - pointA k), mul_div_assoc, div_self hdd, mul_one,
      hs k]
    ring

/-- Instance of `PointToLineDistance_spec`: the line through `(0, 0)` and `(1, 1)`. -/
theorem PointToLineDistance_spec_witness :
    (![0, 0] : Fin 2 → ℚ) ≠ ![1, 1] ∧
    ((PointToLineDistance [[1, 0], [2, 2]] [0, 1] (![0, 0] : Fin 2 → ℚ) ![1, 1]).length =
        ([0, 1] : List Nat).length ∧
    ∀ (i ind : Nat), ([0, 1] : List Nat)[i]? = some ind →
      ∃ dist, (PointToLineDistance [[1, 0], [2, 2]] [0, 1] (![0, 0] : Fin 2 → ℚ)
          ![1, 1])[i]? = some dist ∧
        dist =
          dot (fun k => (objAt [[1, 0], [2, 2]] ind k - (![0, 0] : Fin 2 → ℚ) k) -
              (dot (fun k => objAt [[1, 0], [2, 2]] ind k - (![0, 0] : Fin 2 → ℚ) k)
                  (fun k => (![1, 1] : Fin 2 → ℚ) k - (![0, 0] : Fin 2 → ℚ) k) /
                dot (fun k => (![1, 1] : Fin 2 → ℚ) k - (![0, 0] : Fin 2 → ℚ) k)
                  (fun k => (![1, 1] : Fin 2 → ℚ) k - (![0, 0] : Fin 2 → ℚ) k)) *
                ((![1, 1] : Fin 2 → ℚ) k - (![0, 0] : Fin 2 → ℚ) k))
            (fun k => (objAt [[1, 0], [2, 2]] ind k - (![0, 0] : Fin 2 → ℚ) k) -
              (dot (fun k => objAt [[1, 0], [2, 2]] ind k - (![0, 0] : Fin 2 → ℚ) k)
                  (fun k => (![1, 1] : Fin 2 → ℚ) k - (![0, 0] : Fin 2 → ℚ) k) /
                dot (fun k => (![1, 1] : Fin 2 → ℚ) k - (![0, 0] : Fin 2 → ℚ) k)
                  (fun k => (![1, 1] : Fin 2 → ℚ) k - (![0, 0] : Fin 2 → ℚ) k)) *
                ((![1, 1] : Fin 2 → ℚ) k - (![0, 0] : Fin 2 → ℚ) k)) ∧
        0 ≤ dist ∧
        (dist = 0 ↔ ∃ s : ℚ, ∀ k : Fin 2,
          objAt [[1, 0], [2, 2]] ind k =
            (![0, 0] : Fin 2 → ℚ) k + s * ((![1, 1] : Fin 2 → ℚ) k - (![0, 0] : Fin 2 → ℚ) k))) :=
  ⟨by decide,
    PointToLineDistance_spec [[1, 0], [2, 2]] [0, 1] ![0, 0] ![1, 1] (by decide)⟩

/-! ## Theorems: extreme points -/

theorem indexMinFrom_spec (l : List (WithTop ℚ)) (i : Nat) (bv : WithTop ℚ) (bi : Nat) :
    (indexMinFrom l i bv bi = bi ∧ ∀ x ∈ l, bv ≤ x) ∨
    (∃ k x, indexMinFrom l i bv bi = i + k ∧ l[k]? = some x ∧ x < bv ∧ ∀ y ∈ l, x ≤ y) := by
  induction l generalizing i bv bi with
  | nil => left; exact ⟨rfl, by simp⟩
  | cons x xs ih =>
    by_cases hx : x < bv
    · have hs : indexMinFrom (x :: xs) i bv bi = indexMinFrom xs (i + 1) x i := by
        simp only [indexMinFrom, hx, if_true]
      rw [hs]
      right
      rcases ih (i + 1) x i with ⟨h1, h2⟩ | ⟨k, x', h1, h2, h3, h4⟩
      · refine ⟨0, x, by rw [h1]; rfl, by simp, hx, ?_⟩
        intro y hy
        rcases List.mem_cons.1 hy with rfl | hy
        · exact le_refl _
        · exact h2 y hy
      · refine ⟨k + 1, x', by rw [h1]; omega, by simpa using h2, lt_trans h3 hx, ?_⟩
        intro y hy
        rcases List.mem_cons.1 hy with rfl | hy
        · exact le_of_lt h3
        · exact h4 y hy
    · have hs : indexMinFrom (x :: xs) i bv bi = indexMinFrom xs (i + 1) bv bi := by
        simp only [indexMinFrom, hx, if_false]
      rw [hs]
      rcases ih (i + 1) bv bi with ⟨h1, h2⟩ | ⟨k, x', h1, h2, h3, h4⟩
      · left
        refine ⟨h1, ?_⟩
        intro y hy
        rcases List.mem_cons.1 hy with rfl | hy
        · exact not_lt.1 hx
        · exact h2 y hy
      · right
        refine ⟨k + 1, x', by rw [h1]; omega, by simpa using h2, h3, ?_⟩
        intro y hy
        rcases List.mem_cons.1 hy with rfl | hy
        · exact le_trans (le_of_lt h3) (not_lt.1 hx)
        · exact h4 y hy

theorem indexMin_spec (l : List (WithTop ℚ)) (h : ∃ x ∈ l, x < ⊤) :
    ∃ x, l[indexMin l]? = some x ∧ x < ⊤ ∧ ∀ y ∈ l, x ≤ y := by
  unfold indexMin
  rcases indexMinFrom_spec l 0 ⊤ 0 with ⟨-, h2⟩ | ⟨k, x, h1, h2, h3, h4⟩
  · obtain ⟨x, hx, hlt⟩ := h
    exact absurd (h2 x hx) (not_le.2 hlt)
  · rw [h1, Nat.zero_add]
    exact ⟨x, h2, h3, h4⟩

theorem getElem?_eq_some_getD {α : Type} (l : List α) (j : Nat) (d : α) (h : j < l.length) :
    l[j]? = some (l.getD j d) := by
  rw [List.getD_eq_getElem?_getD, List.getElem?_eq_getElem h]
  rfl

theorem PointToLineDistance_length {m : Nat} (objs : List (List ℚ)) (front : List Nat)
    (pointA pointB : Fin m → ℚ) :
    (PointToLineDistance objs front pointA pointB).length = front.length := by
  simp [PointToLineDistance]

theorem maskedDistances_getElem (numObjectives : Nat) (objs : List (List ℚ))
    (front : List Nat) (selected : List Bool) (i j : Nat)
    (hsel : selected.length = front.length) (hj : j < front.length) :
    (maskedDistances numObjectives objs front selected i)[j]? =
      some (if selected.getD j false then (⊤ : WithTop ℚ)
        else ((axisDistance numObjectives objs front i j : ℚ) : WithTop ℚ)) := by
  unfold maskedDistances axisDistance
  rw [List.getElem?_zipWith,
    getElem?_eq_some_getD _ j 0 (by rw [PointToLineDistance_length]; exact hj),
    getElem?_eq_some_getD selected j false (by rw [hsel]; exact hj)]

theorem exists_unselected (c : List Nat) (len : Nat) (hlen : c.length < len) :
    ∃ j < len, j ∉ c := by
  by_contra hcon
  push_neg at hcon
  have hsub : List.range len ⊆ c := fun j hj => hcon j (List.mem_range.1 hj)
  have := List.Subperm.length_le (List.subperm_of_subset (List.nodup_range len) hsub)
  rw [List.length_range] at this
  omega

theorem take_set_succ {α : Type} (l : List α) (n : Nat) (a : α) (h : n < l.length) :
    (l.set n a).take (n + 1) = l.take n ++ [a] := by
  rw [List.take_succ, List.set_take, List.set_eq_of_length_le (by simp), List.getElem?_set_self h]
  rfl

theorem extremeStep_inv (numObjectives : Nat) (objs : List (List ℚ)) (front : List Nat)
    (n : Nat) (st : List Nat × List Bool) (inv : ExtremeInv numObjectives objs front n st)
    (hn : n < numObjectives) (hlt : numObjectives < front.length) :
    ExtremeInv numObjectives objs front (n + 1) (extremeStep numObjectives objs front st n) := by
  have hnl : n < st.1.length := by rw [inv.len]; exact hn
  have hclen : (st.1.take n).length = n := by
    rw [List.length_take]; omega
  obtain ⟨j0, hj0, hj0c⟩ := exists_unselected (st.1.take n) front.length (by omega)
  have hmask : ∀ j < front.length, j ∉ st.1.take n →
      (maskedDistances numObjectives objs front st.2 n)[j]? =
        some ((axisDistance numObjectives objs front n j : ℚ) : WithTop ℚ) := by
    intro j hj hjc
    rw [maskedDistances_getElem numObjectives objs front st.2 n j inv.sel_len hj]
    have : st.2.getD j false = false := by
      cases hb : st.2.getD j false with
      | false => rfl
      | true => exact absurd ((inv.sel j).1 hb) hjc
    rw [this]
    rfl
  obtain ⟨x, hx1, hx2, hx3⟩ := indexMin_spec (maskedDistances numObjectives objs front st.2 n)
    ⟨_, List.getElem?_mem (hmask j0 hj0 hj0c), WithTop.coe_lt_top _⟩
  generalize hr : indexMin (maskedDistances numObjectives objs front st.2 n) = r at hx1
  have hrlen : r < front.length := by
    have h1 : r < (maskedDistances numObjectives objs front st.2 n).length := by
      by_contra hge
      rw [List.getElem?_eq_none (by omega)] at hx1
      exact absurd hx1 (by simp)
    unfold maskedDistances at h1
    rw [List.length_zipWith, PointToLineDistance_length] at h1
    omega
  have hrsel : st.2.getD r false = false := by
    cases hb : st.2.getD r false with
    | false => rfl
    | true =>
      rw [maskedDistances_getElem numObjectives objs front st.2 n r inv.sel_len hrlen, hb] at hx1
      simp only [if_true, Option.some.injEq] at hx1
      rw [← hx1] at hx2
      exact absurd hx2 (lt_irrefl _)
  have hrc : r ∉ st.1.take n := by
    intro h
    have := (inv.sel r).2 h
    rw [hrsel] at this
    exact absurd this (by simp)
  have hxr : x = ((axisDistance numObjectives objs front n r : ℚ) : WithTop ℚ) := by
    rw [hmask r hrlen hrc] at hx1
    exact (Option.some.inj hx1).symm
  have hstep : extremeStep numObjectives objs front st n = (st.1.set n r, st.2.set r true) := by
    simp only [extremeStep, hr]
  rw [hstep]
  have htake : (st.1.set n r).take (n + 1) = st.1.take n ++ [r] := take_set_succ st.1 n r hnl
  have htaken : (st.1.set n r).take n = st.1.take n := by
    rw [List.set_take, List.set_eq_of_length_le (by rw [hclen])]
  refine ⟨by simp [inv.len], by simp [inv.sel_len], ?_, ?_, ?_, ?_⟩
  · dsimp only
    rw [htake]
    refine List.nodup_append.2 ⟨inv.nodup, List.nodup_singleton r, ?_⟩
    intro a ha har
    rw [List.mem_singleton] at har
    exact hrc (har ▸ ha)
  · dsimp only
    intro a ha
    rw [htake] at ha
    rcases List.mem_append.1 ha with h | h
    · exact inv.lt a h
    · rw [List.mem_singleton.1 h]; exact hrlen
  · intro j
    dsimp only
    rw [htake, List.mem_append, List.mem_singleton, List.getD_eq_getElem?_getD]
    by_cases hjr : j = r
    · subst hjr
      rw [List.getElem?_set_self (by rw [inv.sel_len]; exact hrlen)]
      simp
    · rw [List.getElem?_set_ne (Ne.symm hjr), ← List.getD_eq_getElem?_getD, inv.sel j]
      simp [hjr]
  · intro a ha j hj hjc
    dsimp only at hjc ⊢
    by_cases han : a = n
    · subst han
      rw [htaken] at hjc
      have hget : (st.1.set a r).getD a 0 = r := by
        rw [List.getD_eq_getElem?_getD, List.getElem?_set_self hnl]
        rfl
      rw [hget]
      have := hx3 _ (List.getElem?_mem (hmask j hj hjc))
      rw [hxr] at this
      exact WithTop.coe_le_coe.1 this
    · have hlt' : a < n := by omega
      rw [List.take_set_of_lt r st.1 hlt'] at hjc
      have hget : (st.1.set n r).getD a 0 = st.1.getD a 0 := by
        rw [List.getD_eq_getElem?_getD, List.getElem?_set_ne (Ne.symm han),
          ← List.getD_eq_getElem?_getD]
      rw [hget]
      exact inv.best a hlt' j hj hjc

theorem extreme_fold_inv (numObjectives : Nat) (indexes : List Nat) (objs : List (List ℚ))
    (front : List Nat) (hlt : numObjectives < front.length)
    (hlen : indexes.length = numObjectives) (n : Nat) (hn : n ≤ numObjectives) :
    ExtremeInv numObjectives objs front n
      ((List.range n).foldl (extremeStep numObjectives objs front)
        (indexes, List.replicate front.length false)) := by
  induction n with
  | zero =>
    refine ⟨hlen, by simp, by simp, by simp, ?_, fun a ha => absurd ha (by omega)⟩
    intro j
    simp only [List.range_zero, List.foldl_nil, List.take_zero, List.not_mem_nil, iff_false,
      List.getD_eq_getElem?_getD, List.getElem?_replicate]
    split <;> simp
  | succ n ih =>
    rw [List.range_succ, List.foldl_append, List.foldl_cons, List.foldl_nil]
    exact extremeStep_inv numObjectives objs front n _ (ih (by omega)) (by omega) hlt

/-- C19. For a front with more members than objectives (and `indexes` holding one entry per
objective), `FindExtremePoints` returns one index per objective axis; the indices are pairwise
distinct, each is a position in the front, and the index chosen for axis `i` has the smallest
distance to the axis-`i` probe line among the positions not chosen for the axes below `i`. -/
theorem FindExtremePoints_spec (numObjectives : Nat) (indexes : List Nat)
    (calculatedObjectives : List (List ℚ)) (front : List Nat)
    (hlt : numObjectives < front.length) (hlen : indexes.length = numObjectives) :
    (FindExtremePoints numObjectives indexes calculatedObjectives front).length =
      numObjectives ∧
    (FindExtremePoints numObjectives indexes calculatedObjectives front).Nodup ∧
    (∀ x ∈ FindExtremePoints numObjectives indexes calculatedObjectives front,
      x < front.length) ∧
    ∀ i < numObjectives, ∀ j < front.length,
      j ∉ (FindExtremePoints numObjectives indexes calculatedObjectives front).take i →
      (PointToLineDistance calculatedObjectives front (fun _ => 0)
          (probeDirection numObjectives i)).getD
          ((FindExtremePoints numObjectives indexes calculatedObjectives front).getD i 0) 0 ≤
        (PointToLineDistance calculatedObjectives front (fun _ => 0)
          (probeDirection numObjectives i)).getD j 0 := by
  have inv := extreme_fold_inv numObjectives indexes calculatedObjectives front hlt hlen
    numObjectives (le_refl _)
  have hdef : FindExtremePoints numObjectives indexes calculatedObjectives front =
      ((List.range numObjectives).foldl
        (extremeStep numObjectives calculatedObjectives front)
        (indexes, List.replicate front.length false)).1 := by
    simp only [FindExtremePoints, ge_iff_le, not_le.mpr hlt, if_false]
  rw [hdef]
  generalize (List.range numObjectives).foldl
    (extremeStep numObjectives calculatedObjectives front)
    (indexes, List.replicate front.length false) = st at inv
  have hall : st.1.take numObjectives = st.1 := List.take_of_length_le (by rw [inv.len])
  refine ⟨inv.len, ?_, ?_, fun i hi j hj hjc => inv.best i hi j hj hjc⟩
  · rw [← hall]; exact inv.nodup
  · intro x hx
    rw [← hall] at hx
    exact inv.lt x hx

/-- Instance of `FindExtremePoints_spec`: four members, two objectives. -/
theorem FindExtremePoints_spec_witness :
    2 < ([0, 1, 2, 3] : List Nat).length ∧ ([9, 9] : List Nat).length = 2 ∧
    ((FindExtremePoints 2 [9, 9] [[1, 0], [0, 1], [1, 1], [2, 2]] [0, 1, 2, 3]).length = 2 ∧
    (FindExtremePoints 2 [9, 9] [[1, 0], [0, 1], [1, 1], [2, 2]] [0, 1, 2, 3]).Nodup ∧
    (∀ x ∈ FindExtremePoints 2 [9, 9] [[1, 0], [0, 1], [1, 1], [2, 2]] [0, 1, 2, 3],
      x < ([0, 1, 2, 3] : List Nat).length) ∧
    ∀ i < 2, ∀ j < ([0, 1, 2, 3] : List Nat).length,
      j ∉ (FindExtremePoints 2 [9, 9] [[1, 0], [0, 1], [1, 1], [2, 2]] [0, 1, 2, 3]).take i →
      (PointToLineDistance [[1, 0], [0, 1], [1, 1], [2, 2]] [0, 1, 2, 3] (fun _ => 0)
          (probeDirection 2 i)).getD
          ((FindExtremePoints 2 [9, 9] [[1, 0], [0, 1], [1, 1], [2, 2]] [0, 1, 2, 3]).getD
            i 0) 0 ≤
        (PointToLineDistance [[1, 0], [0, 1], [1, 1], [2, 2]] [0, 1, 2, 3] (fun _ => 0)
          (probeDirection 2 i)).getD j 0) :=
  ⟨by decide, by decide,
    FindExtremePoints_spec 2 [9, 9] [[1, 0], [0, 1], [1, 1], [2, 2]] [0, 1, 2, 3]
      (by decide) (by decide)⟩

/-! ## Theorems: returned value -/

theorem performance_spec (elemMax : ℚ) (l : List (List ℚ)) :
    Optimize_performance elemMax l ≤ elemMax ∧
    (∀ o ∈ l, Optimize_performance elemMax l ≤ o.sum) ∧
    (Optimize_performance elemMax l = elemMax ∨
      ∃ o ∈ l, Optimize_performance elemMax l = o.sum) := by
  unfold Optimize_performance
  induction l generalizing elemMax with
  | nil => simp
  | cons o os ih =>
    rw [List.foldl_cons]
    by_cases h : o.sum < elemMax
    · simp only [h, if_true]
      obtain ⟨h1, h2, h3⟩ := ih o.sum
      refine ⟨le_trans h1 (le_of_lt h), ?_, ?_⟩
      · intro x hx
        rcases List.mem_cons.1 hx with rfl | hx
        · exact h1
        · exact h2 x hx
      · right
        rcases h3 with h3 | ⟨x, hx, h3⟩
        · exact ⟨o, List.mem_cons_self o os, h3⟩
        · exact ⟨x, List.mem_cons_of_mem o hx, h3⟩
    · simp only [h, if_false]
      obtain ⟨h1, h2, h3⟩ := ih elemMax
      refine ⟨h1, ?_, ?_⟩
      · intro x hx
        rcases List.mem_cons.1 hx with rfl | hx
        · exact le_trans h1 (not_lt.1 h)
        · exact h2 x hx
      · rcases h3 with h3 | ⟨x, hx, h3⟩
        · exact Or.inl h3
        · exact Or.inr ⟨x, List.mem_cons_of_mem o hx, h3⟩

/-- C16 (the code departs from the claim). With `populationSize = 4`, the objective
`f(x) = x[0]`, a last combined population `1, ..., 8` and the final population `1, 2, 3, 4`,
the vector scanned for the result still has the eight slots of the combined population, the
last four holding the zero fill; the value returned is 0, while every member of the final
population has objective sum at least 1. -/
theorem Optimize_returnValue_scans_stale_slots :
    EvaluateObjectives 4 ([![1], ![2], ![3], ![4]] : List (Candidate 1)) [fun x => x 0]
        (Optimize_evaluateGeneration 4
          ([![1], ![2], ![3], ![4], ![5], ![6], ![7], ![8]] : List (Candidate 1))
          [fun x => x 0]) =
      [[1], [2], [3], [4], [0], [0], [0], [0]] ∧
    (∀ elemMax : ℚ, 0 < elemMax →
      Optimize_returnValue elemMax 4 ([![1], ![2], ![3], ![4]] : List (Candidate 1))
        [fun x => x 0]
        (Optimize_evaluateGeneration 4
          ([![1], ![2], ![3], ![4], ![5], ![6], ![7], ![8]] : List (Candidate 1))
          [fun x => x 0]) = 0) ∧
    (∀ c ∈ ([![1], ![2], ![3], ![4]] : List (Candidate 1)), (1 : ℚ) ≤ [c 0].sum) := by
  have hstate : EvaluateObjectives 4 ([![1], ![2], ![3], ![4]] : List (Candidate 1))
      [fun x => x 0]
      (Optimize_evaluateGeneration 4
        ([![1], ![2], ![3], ![4], ![5], ![6], ![7], ![8]] : List (Candidate 1))
        [fun x => x 0]) =
      [[1], [2], [3], [4], [0], [0], [0], [0]] := by
    rfl
  refine ⟨hstate, ?_, ?_⟩
  · intro elemMax hpos
    unfold Optimize_returnValue
    rw [hstate]
    obtain ⟨h1, h2, h3⟩ := performance_spec elemMax [[1], [2], [3], [4], [0], [0], [0], [0]]
    have hle : Optimize_performance elemMax [[1], [2], [3], [4], [0], [0], [0], [0]] ≤ 0 := by
      have := h2 [0] (by simp)
      simpa using this
    rcases h3 with h3 | ⟨o, ho, h3⟩
    · rw [h3] at hle
      exact absurd hle (not_le.2 hpos)
    · apply le_antisymm hle
      rw [h3]
      simp only [List.mem_cons, List.mem_singleton, List.not_mem_nil, or_false] at ho
      rcases ho with rfl | rfl | rfl | rfl | rfl | rfl | rfl | rfl <;> simp
  · intro c hc
    simp only [List.mem_cons, List.mem_singleton, List.not_mem_nil, or_false] at hc
    rcases hc with rfl | rfl | rfl | rfl <;> simp

/-! ## Theorems: epsilon indicator -/

theorem foldl_min_spec (rest : List ℚ) (a : ℚ) :
    rest.foldl min a ≤ a ∧
    (∀ x ∈ rest, rest.foldl min a ≤ x) ∧
    (rest.foldl min a = a ∨ ∃ x ∈ rest, rest.foldl min a = x) := by
  induction rest generalizing a with
  | nil => simp
  | cons y ys ih =>
    rw [List.foldl_cons]
    obtain ⟨h1, h2, h3⟩ := ih (min a y)
    refine ⟨le_trans h1 (min_le_left _ _), ?_, ?_⟩
    · intro x hx
      rcases List.mem_cons.1 hx with rfl | hx
      · exact le_trans h1 (min_le_right _ _)
      · exact h2 x hx
    · rcases h3 with h3 | ⟨x, hx, h3⟩
      · rcases min_choice a y with hm | hm
        · left; rw [h3, hm]
        · right; exact ⟨y, List.mem_cons_self y ys, by rw [h3, hm]⟩
      · right; exact ⟨x, List.mem_cons_of_mem y hx, h3⟩

theorem foldl_max_spec_id (rest : List ℚ) (a : ℚ) :
    a ≤ rest.foldl max a ∧
    (∀ x ∈ rest, x ≤ rest.foldl max a) ∧
    (rest.foldl max a = a ∨ ∃ x ∈ rest, rest.foldl max a = x) :=
  foldl_max_spec (fun x : ℚ => x) rest a

theorem le_maxOf (l : List ℚ) (x : ℚ) (hx : x ∈ l) : x ≤ maxOf l :=
  (foldl_max_spec_id l (l.headD 0)).2.1 x hx

theorem maxOf_mem (l : List ℚ) (hl : l ≠ []) : maxOf l ∈ l := by
  cases l with
  | nil => exact absurd rfl hl
  | cons a t =>
    rcases (foldl_max_spec_id (a :: t) a).2.2 with h | ⟨x, hx, h⟩
    · have : maxOf (a :: t) = a := h
      rw [this]; exact List.mem_cons_self a t
    · have : maxOf (a :: t) = x := h
      rw [this]; exact hx

theorem minOf_le (l : List ℚ) (x : ℚ) (hx : x ∈ l) : minOf l ≤ x :=
  (foldl_min_spec l (l.headD 0)).2.1 x hx

theorem minOf_mem (l : List ℚ) (hl : l ≠ []) : minOf l ∈ l := by
  cases l with
  | nil => exact absurd rfl hl
  | cons a t =>
    rcases (foldl_min_spec (a :: t) a).2.2 with h | ⟨x, hx, h⟩
    · have : minOf (a :: t) = a := h
      rw [this]; exact List.mem_cons_self a t
    · have : minOf (a :: t) = x := h
      rw [this]; exact hx

theorem maxOf_eq (l : List ℚ) (c : ℚ) (hc : c ∈ l) (hle : ∀ x ∈ l, x ≤ c) : maxOf l = c :=
  le_antisymm (hle _ (maxOf_mem l (List.ne_nil_of_mem hc))) (le_maxOf l c hc)

theorem minOf_eq (l : List ℚ) (c : ℚ) (hc : c ∈ l) (hle : ∀ x ∈ l, c ≤ x) : minOf l = c :=
  le_antisymm (minOf_le l c hc) (hle _ (minOf_mem l (List.ne_nil_of_mem hc)))

theorem ratio_getElem (c : ℚ) (a r : List ℚ) (m k : Nat) (ha : a.length = m)
    (hr : r.length = m) (hk : k < m) :
    (List.zipWith (fun x y => x / y) (a.map (fun x => c * x)) r)[k]? =
      some (c * a.getD k 0 / r.getD k 0) := by
  rw [List.getElem?_zipWith, List.getElem?_map,
    getElem?_eq_some_getD a k 0 (by omega), getElem?_eq_some_getD r k 0 (by omega)]
  rfl

theorem ratio_mem (c : ℚ) (a r : List ℚ) (m : Nat) (ha : a.length = m) (hr : r.length = m)
    (x : ℚ) (hx : x ∈ List.zipWith (fun x y => x / y) (a.map (fun x => c * x)) r) :
    ∃ k < m, x = c * a.getD k 0 / r.getD k 0 := by
  obtain ⟨k, hk⟩ := List.getElem?_of_mem hx
  have hkm : k < m := by
    by_contra hge
    rw [List.getElem?_eq_none (by simp; omega)] at hk
    exact absurd hk (by simp)
  rw [ratio_getElem c a r m k ha hr hkm] at hk
  exact ⟨k, hkm, (Option.some.inj hk).symm⟩

theorem getD_pos (r : List ℚ) (k : Nat) (hk : k < r.length) (hpos : ∀ x ∈ r, 0 < x) :
    0 < r.getD k 0 :=
  hpos _ (List.getElem?_mem (getElem?_eq_some_getD r k 0 hk))

/-- The gap of the scaled point `c * r` to its own reference point `r` is `c`. -/
theorem gap_self (c : ℚ) (r : List ℚ) (m : Nat) (hm : 0 < m) (hr : r.length = m)
    (hpos : ∀ x ∈ r, 0 < x) :
    maxOf (List.zipWith (fun x y => x / y) (r.map (fun x => c * x)) r) = c := by
  apply maxOf_eq
  · have h0 := ratio_getElem c r r m 0 hr hr hm
    have hne : r.getD 0 0 ≠ 0 := ne_of_gt (getD_pos r 0 (by omega) hpos)
    rw [mul_div_assoc, div_self hne, mul_one] at h0
    exact List.getElem?_mem h0
  · intro x hx
    obtain ⟨k, hk, rfl⟩ := ratio_mem c r r m hr hr x hx
    have hne : r.getD k 0 ≠ 0 := ne_of_gt (getD_pos r k (by omega) hpos)
    rw [mul_div_assoc, div_self hne, mul_one]

/-- The gap of a scaled point `c * a` to a reference point `r` that `a` does not dominate in
every coordinate is at least `c`. -/
theorem le_gap (c : ℚ) (hc : 0 < c) (a r : List ℚ) (m : Nat) (ha : a.length = m)
    (hr : r.length = m) (hpos : ∀ x ∈ r, 0 < x) (k : Nat) (hk : k < m)
    (hle : r.getD k 0 ≤ a.getD k 0) :
    c ≤ maxOf (List.zipWith (fun x y => x / y) (a.map (fun x => c * x)) r) := by
  have hrk : 0 < r.getD k 0 := getD_pos r k (by omega) hpos
  have h1 : c ≤ c * a.getD k 0 / r.getD k 0 := by
    rw [le_div_iff₀ hrk]
    exact mul_le_mul_of_nonneg_left hle (le_of_lt hc)
  exact le_trans h1 (le_maxOf _ _ (List.getElem?_mem (ratio_getElem c a r m k ha hr hk)))

/-- C17. For a non-empty reference front of mutually non-dominated points, all of the same
positive dimension and with strictly positive coordinates, and for every scale factor
`c > 0`, the epsilon indicator of the front scaled by `c` against the reference front is
`c`. -/
theorem Epsilon_Evaluate_scaled (referenceFront : List (List ℚ)) (c : ℚ) (m : Nat)
    (hc : 0 < c) (hne : referenceFront ≠ []) (hm : 0 < m)
    (hdim : ∀ r ∈ referenceFront, r.length = m)
    (hpos : ∀ r ∈ referenceFront, ∀ x ∈ r, 0 < x)
    (hnd : ∀ r ∈ referenceFront, ∀ a ∈ referenceFront, ¬ PointDominates a r) :
    Epsilon_Evaluate (referenceFront.map (fun r => r.map (fun x => c * x))) referenceFront
      = c := by
  unfold Epsilon_Evaluate
  have hinner : ∀ r ∈ referenceFront,
      minOf ((referenceFront.map (fun r => r.map (fun x => c * x))).map
        (fun a => maxOf (List.zipWith (fun x y => x / y) a r))) = c := by
    intro r hr
    apply minOf_eq
    · rw [List.map_map]
      exact List.mem_map.2 ⟨r, hr, gap_self c r m hm (hdim r hr) (hpos r hr)⟩
    · intro x hx
      rw [List.map_map] at hx
      obtain ⟨a, ha, rfl⟩ := List.mem_map.1 hx
      simp only [Function.comp]
      have hex : ∃ k < m, r.getD k 0 ≤ a.getD k 0 := by
        by_contra hcon
        push_neg at hcon
        apply hnd r hr a ha
        rw [PointDominates, hdim a ha]
        exact ⟨fun k hk => le_of_lt (hcon k hk), 0, hm, hcon 0 hm⟩
      obtain ⟨k, hk, hle⟩ := hex
      exact le_gap c hc a r m (hdim a ha) (hdim r hr) (hpos r hr) k hk hle
  obtain ⟨r0, hr0⟩ := List.exists_mem_of_ne_nil referenceFront hne
  apply maxOf_eq
  · exact List.mem_map.2 ⟨r0, hr0, hinner r0 hr0⟩
  · intro x hx
    obtain ⟨r, hr, rfl⟩ := List.mem_map.1 hx
    exact le_of_eq (hinner r hr)

/-- Instance of `Epsilon_Evaluate_scaled` at the reference front and the factor 1.1 of
`EpsilonDoubleTest`. -/
theorem Epsilon_Evaluate_scaled_witness :
    (0 : ℚ) < 1.1 ∧
    ([[0.01010101, 0.89949622], [0.02020202, 0.85786619],
        [0.03030303, 0.82592234]] : List (List ℚ)) ≠ [] ∧
    0 < 2 ∧
    (∀ r ∈ ([[0.01010101, 0.89949622], [0.02020202, 0.85786619],
        [0.03030303, 0.82592234]] : List (List ℚ)), r.length = 2) ∧
    (∀ r ∈ ([[0.01010101, 0.89949622], [0.02020202, 0.85786619],
        [0.03030303, 0.82592234]] : List (List ℚ)), ∀ x ∈ r, 0 < x) ∧
    (∀ r ∈ ([[0.01010101, 0.89949622], [0.02020202, 0.85786619],
        [0.03030303, 0.82592234]] : List (List ℚ)),
      ∀ a ∈ ([[0.01010101, 0.89949622], [0.02020202, 0.85786619],
        [0.03030303, 0.82592234]] : List (List ℚ)), ¬ PointDominates a r) ∧
    Epsilon_Evaluate
      (([[0.01010101, 0.89949622], [0.02020202, 0.85786619],
        [0.03030303, 0.82592234]] : List (List ℚ)).map (fun r => r.map (fun x => 1.1 * x)))
      [[0.01010101, 0.89949622], [0.02020202, 0.85786619], [0.03030303, 0.82592234]] = 1.1 :=
  have hdim : ∀ r ∈ ([[0.01010101, 0.89949622], [0.02020202, 0.85786619],
        [0.03030303, 0.82592234]] : List (List ℚ)), r.length = 2 := by
    intro r hr
    simp only [List.mem_cons, List.mem_singleton, List.not_mem_nil, or_false] at hr
    rcases hr with rfl | rfl | rfl <;> rfl
  have hpos : ∀ r ∈ ([[0.01010101, 0.89949622], [0.02020202, 0.85786619],
        [0.03030303, 0.82592234]] : List (List ℚ)), ∀ x ∈ r, 0 < x := by
    intro r hr x hx
    simp only [List.mem_cons, List.mem_singleton, List.not_mem_nil, or_false] at hr
    rcases hr with rfl | rfl | rfl <;>
      simp only [List.mem_cons, List.mem_singleton, List.not_mem_nil, or_false] at hx <;>
      rcases hx with rfl | rfl <;> norm_num
  have hnd : ∀ r ∈ ([[0.01010101, 0.89949622], [0.02020202, 0.85786619],
        [0.03030303, 0.82592234]] : List (List ℚ)),
      ∀ a ∈ ([[0.01010101, 0.89949622], [0.02020202, 0.85786619],
        [0.03030303, 0.82592234]] : List (List ℚ)), ¬ PointDominates a r := by
    intro r hr a ha
    simp only [List.mem_cons, List.mem_singleton, List.not_mem_nil, or_false] at hr ha
    rintro ⟨h1, k, hk, h2⟩
    rcases hr with rfl | rfl | rfl <;> rcases ha with rfl | rfl | rfl <;>
      first
      | (have h10 := h1 0 (by decide); norm_num at h10; done)
      | (have h11 := h1 1 (by decide); norm_num at h11; done)
      | (have hk2 : k < 2 := hk; interval_cases k <;> norm_num at h2)
  ⟨by norm_num, by simp, by decide, hdim, hpos, hnd,
    Epsilon_Evaluate_scaled
      [[0.01010101, 0.89949622], [0.02020202, 0.85786619], [0.03030303, 0.82592234]]
      1.1 2 (by norm_num) (by simp) (by decide) hdim hpos hnd⟩

/-! ## Theorems: size of the enlarged population -/

theorem tournamentLoop_length {n : Nat} (pow : ℚ → ℚ → ℚ) (cfg : Params) (g : Draws)
    (population : List (Candidate n)) (lowerBound upperBound : Candidate n) :
    ∀ (m : Nat) (children : List (Candidate n)) (pos : Nat),
      population.length - children.length = m →
      children.length ≤ population.length + 1 →
      (tournamentLoop pow cfg g population lowerBound upperBound children pos).1.length % 2 =
          children.length % 2 ∧
        population.length ≤
          (tournamentLoop pow cfg g population lowerBound upperBound children pos).1.length ∧
        (tournamentLoop pow cfg g population lowerBound upperBound children pos).1.length ≤
          population.length + 1 := by
  intro m
  induction m using Nat.strong_induction_on with
  | _ m ih =>
    intro children pos hm hch
    rw [tournamentLoop]
    split
    · rename_i hlt
      dsimp only
      have key : ∀ (a b : Candidate n) (pos' : Nat),
          (tournamentLoop pow cfg g population lowerBound upperBound (children ++ [a, b])
              pos').1.length % 2 = children.length % 2 ∧
          population.length ≤
            (tournamentLoop pow cfg g population lowerBound upperBound (children ++ [a, b])
              pos').1.length ∧
          (tournamentLoop pow cfg g population lowerBound upperBound (children ++ [a, b])
              pos').1.length ≤ population.length + 1 := by
        intro a b pos'
        have hlen : (children ++ [a, b]).length = children.length + 2 := by simp
        obtain ⟨h1, h2, h3⟩ := ih (population.length - (children ++ [a, b]).length)
          (by rw [hlen]; omega) (children ++ [a, b]) pos' rfl (by rw [hlen]; omega)
        refine ⟨?_, h2, h3⟩
        rw [h1, hlen]
        omega
      exact key _ _ _
    · rename_i hge
      dsimp only
      exact ⟨rfl, by omega, hch⟩

/-- C21. `BinaryTournamentSelection` keeps the original members first, unchanged and in the
same order, and appends the children after them: a population of even size `P` grows to
exactly `2P` members, one of odd size to `2P + 1`, whatever the random draws. -/
theorem BinaryTournamentSelection_size {n : Nat} (pow : ℚ → ℚ → ℚ) (cfg : Params) (g : Draws)
    (pos : Nat) (population : List (Candidate n)) (lowerBound upperBound : Candidate n) :
    (BinaryTournamentSelection pow cfg g pos population lowerBound upperBound).1.take
        population.length = population ∧
    (BinaryTournamentSelection pow cfg g pos population lowerBound upperBound).1.length =
      (if population.length % 2 = 0 then 2 * population.length
        else 2 * population.length + 1) ∧
    (BinaryTournamentSelection pow cfg g pos population lowerBound upperBound).1.drop
        population.length =
      (tournamentLoop pow cfg g population lowerBound upperBound [] pos).1 := by
  obtain ⟨h1, h2, h3⟩ := tournamentLoop_length pow cfg g population lowerBound upperBound
    _ [] pos rfl (by simp)
  simp only [List.length_nil, Nat.zero_mod] at h1
  simp only [BinaryTournamentSelection, List.take_left, List.drop_left, List.length_append,
    true_and, and_true]
  split <;> omega

/-! ## Theorems: dominance as an order, index set of the fronts -/

/-- C23. `Dominates` is a strict partial order on the candidates: it is asymmetric and
transitive. -/
theorem Dominates_strict_partial_order (calculatedObjectives : List (List ℚ)) :
    (∀ p q, Dominates calculatedObjectives p q = true →
      Dominates calculatedObjectives q p = false) ∧
    (∀ p q r, Dominates calculatedObjectives p q = true →
      Dominates calculatedObjectives q r = true →
      Dominates calculatedObjectives p r = true) :=
  ⟨fun p q h => dominates_asymm calculatedObjectives p q h,
    fun p q r h1 h2 => dominates_trans calculatedObjectives p q r h1 h2⟩

/-- Instance of `Dominates_strict_partial_order` on a chain of three candidates. -/
theorem Dominates_strict_partial_order_witness :
    Dominates [[1, 1], [2, 2], [3, 3]] 0 1 = true ∧
    Dominates [[1, 1], [2, 2], [3, 3]] 1 2 = true ∧
    Dominates [[1, 1], [2, 2], [3, 3]] 1 0 = false ∧
    Dominates [[1, 1], [2, 2], [3, 3]] 0 2 = true :=
  ⟨by decide, by decide,
    (Dominates_strict_partial_order [[1, 1], [2, 2], [3, 3]]).1 0 1 (by decide),
    (Dominates_strict_partial_order [[1, 1], [2, 2], [3, 3]]).2 0 1 2 (by decide) (by decide)⟩

/-- C24. When the list of objective vectors has at least `populationSize` entries, whatever
its length, the sort returns fronts that are pairwise disjoint and free of repeated indices,
and whose union is exactly the set of indices below `populationSize`. -/
theorem FastNonDominatedSort_classifies_first (calculatedObjectives : List (List ℚ))
    (fuel populationSize : Nat) (ranks : List Nat)
    (hfuel : populationSize < fuel) (hsize : populationSize < SIZE_MOD)
    (_hlen : populationSize ≤ calculatedObjectives.length) :
    ∃ fronts ranksOut,
      FastNonDominatedSort fuel populationSize ranks calculatedObjectives =
        some (fronts, ranksOut) ∧
      (∀ k k' q, q ∈ fronts.getD k [] → q ∈ fronts.getD k' [] → k = k') ∧
      (∀ f ∈ fronts, f.Nodup) ∧
      fronts.flatten.Nodup ∧
      (∀ q, (∃ k, q ∈ fronts.getD k []) ↔ q < populationSize) := by
  obtain ⟨fronts, ranksOut, hrun, spec⟩ :=
    sort_spec calculatedObjectives fuel populationSize ranks hfuel hsize
  refine ⟨fronts, ranksOut, hrun, ?_, ?_, spec.nodup, ?_⟩
  · intro k k' q hk hk'
    rw [← inFront_iff_getD] at hk hk'
    exact inFront_unique fronts spec.nodup k k' q hk hk'
  · intro f hf
    exact (List.nodup_flatten.1 spec.nodup).1 f hf
  · intro q
    rw [← spec.mem q, mem_flatten_iff_inFront]
    constructor
    · rintro ⟨k, hk⟩
      exact ⟨k, (inFront_iff_getD fronts k q).2 hk⟩
    · rintro ⟨k, hk⟩
      exact ⟨k, (inFront_iff_getD fronts k q).1 hk⟩

/-- Instance of `FastNonDominatedSort_classifies_first`: four candidates sorted out of a
list of six objective vectors. -/
theorem FastNonDominatedSort_classifies_first_witness :
    (4 : Nat) < 5 ∧ 4 < SIZE_MOD ∧
    4 ≤ ([[1, 2], [2, 1], [2, 2], [3, 3], [0, 0], [0, 0]] : List (List ℚ)).length ∧
    ∃ fronts ranksOut,
      FastNonDominatedSort 5 4 [0, 0, 0, 0, 0, 0]
          [[1, 2], [2, 1], [2, 2], [3, 3], [0, 0], [0, 0]] = some (fronts, ranksOut) ∧
      (∀ k k' q, q ∈ fronts.getD k [] → q ∈ fronts.getD k' [] → k = k') ∧
      (∀ f ∈ fronts, f.Nodup) ∧
      fronts.flatten.Nodup ∧
      (∀ q, (∃ k, q ∈ fronts.getD k []) ↔ q < 4) :=
  ⟨by decide, by decide, by decide,
    FastNonDominatedSort_classifies_first [[1, 2], [2, 1], [2, 2], [3, 3], [0, 0], [0, 0]]
      5 4 [0, 0, 0, 0, 0, 0] (by decide) (by decide) (by decide)⟩

/-! ## Theorems: early return of crossover -/

/-- C25. `Crossover` returns the parents unchanged, without drawing, as soon as one variable
has `parentA - parentB < 1e-14` (signed); the blend of lines 343–375 is what it returns
exactly when `parentA` exceeds `parentB` by at least `1e-14` on every variable. -/
theorem Crossover_early_return {n : Nat} (pow : ℚ → ℚ → ℚ) (eta : ℚ) (g : Draws) (pos : Nat)
    (parentA parentB lowerBound upperBound : Candidate n) :
    ((∃ i, parentA i - parentB i < 1e-14) →
      Crossover pow eta g pos parentA parentB lowerBound upperBound =
        (parentA, parentB, pos)) ∧
    ((∀ i, 1e-14 ≤ parentA i - parentB i) →
      Crossover pow eta g pos parentA parentB lowerBound upperBound =
        (fun i => crossoverInherit (parentA i)
            ((crossoverBlend pow eta (fun i => g.randu (pos + i)) parentA parentB lowerBound
              upperBound).1 i)
            ((crossoverBlend pow eta (fun i => g.randu (pos + i)) parentA parentB lowerBound
              upperBound).2 i)
            (g.randu (pos + n + i)) (g.randu (pos + 2 * n + i)),
         fun i => crossoverInherit (parentB i)
            ((crossoverBlend pow eta (fun i => g.randu (pos + i)) parentA parentB lowerBound
              upperBound).2 i)
            ((crossoverBlend pow eta (fun i => g.randu (pos + i)) parentA parentB lowerBound
              upperBound).1 i)
            (g.randu (pos + n + i)) (g.randu (pos + 2 * n + i)),
         pos + 3 * n)) := by
  constructor
  · rintro ⟨i, hi⟩
    have hcount : (List.finRange n).countP
        (fun i => decide (parentA i - parentB i < 1e-14)) ≠ 0 := by
      intro h0
      rw [List.countP_eq_zero] at h0
      exact h0 i (List.mem_finRange i) (by simpa using hi)
    simp only [Crossover, hcount, ne_eq, not_false_eq_true, if_true]
  · intro hall
    have hcount : (List.finRange n).countP
        (fun i => decide (parentA i - parentB i < 1e-14)) = 0 := by
      rw [List.countP_eq_zero]
      intro i _
      simpa using hall i
    simp only [Crossover, hcount, ne_eq, not_true_eq_false, if_false]

/-- Instance of `Crossover_early_return`: one variable of two has `parentA < parentB`. -/
theorem Crossover_early_return_witness :
    (∃ i : Fin 2, (![3, 1] : Candidate 2) i - (![1, 2] : Candidate 2) i < 1e-14) ∧
    Crossover (fun x _ => x) 20 ⟨fun _ => 1, fun _ => 0⟩ 5 ![3, 1] ![1, 2] ![0, 0] ![3, 3] =
      (![3, 1], ![1, 2], 5) :=
  ⟨⟨1, by norm_num⟩,
    (Crossover_early_return (fun x _ => x) 20 ⟨fun _ => 1, fun _ => 0⟩ 5 ![3, 1] ![1, 2]
      ![0, 0] ![3, 3]).1 ⟨1, by norm_num⟩⟩

/-! ## Theorems: termination of the sort -/

theorem relaxStepChecked_none (i : Nat) (l : List Nat) :
    l.foldl (relaxStepChecked i) none = none := by
  induction l with
  | nil => rfl
  | cons a l ih => rw [List.foldl_cons]; exact ih

theorem relaxStep_count (i : Nat) (acc : SortState × List Nat) (q : Nat) :
    (relaxStep i acc q).1.dominationCount =
      mapSet acc.1.dominationCount q (sizeDec (acc.1.dominationCount q)) := by
  simp only [relaxStep]
  split <;> rfl

theorem relax_fold_checked (i : Nat) (l : List Nat) (acc : SortState × List Nat)
    (hc : ∀ q, l.count q ≤ acc.1.dominationCount q) :
    l.foldl (relaxStepChecked i) (some acc) = some (l.foldl (relaxStep i) acc) := by
  induction l generalizing acc with
  | nil => rfl
  | cons a l ih =>
    have hca : l.count a + 1 ≤ acc.1.dominationCount a := by
      have := hc a
      rwa [List.count_cons_self] at this
    have hs : relaxStepChecked i (some acc) a = some (relaxStep i acc a) := by
      simp only [relaxStepChecked]
      rw [if_neg (by omega)]
    rw [List.foldl_cons, List.foldl_cons, hs]
    apply ih
    intro q
    rw [relaxStep_count]
    by_cases hq : q = a
    · subst hq
      rw [mapSet_same, sizeDec_pos _ (by omega)]
      omega
    · rw [mapSet_other _ _ _ _ hq]
      have := hc q
      rwa [List.count_cons_of_ne hq] at this

theorem relax_fold_count (i : Nat) (l : List Nat) (acc : SortState × List Nat)
    (hc : ∀ q, l.count q ≤ acc.1.dominationCount q) (q : Nat) :
    (l.foldl (relaxStep i) acc).1.dominationCount q = acc.1.dominationCount q - l.count q := by
  obtain ⟨_, -, -, -, -, -, e6, -, -, -⟩ := relax_fold i l acc.1 acc.2 hc
  exact e6 q

theorem processFront_checked_fold (i : Nat) (C : List Nat) (acc : SortState × List Nat)
    (hc : ∀ q, (C.flatMap acc.1.dominated).count q ≤ acc.1.dominationCount q) :
    C.foldl
        (fun acc p =>
          match acc with
          | none => none
          | some a => (a.1.dominated p).foldl (relaxStepChecked i) (some a))
        (some acc) =
      some (C.foldl (fun acc p => (acc.1.dominated p).foldl (relaxStep i) acc) acc) := by
  induction C generalizing acc with
  | nil => rfl
  | cons p C ih =>
    have hcp : ∀ q, (acc.1.dominated p).count q ≤ acc.1.dominationCount q := by
      intro q
      have := hc q
      rw [List.flatMap_cons, List.count_append] at this
      omega
    rw [List.foldl_cons, List.foldl_cons]
    simp only [relax_fold_checked i (acc.1.dominated p) acc hcp]
    apply ih
    intro q
    rw [relax_fold_dominated, relax_fold_count i (acc.1.dominated p) acc hcp q]
    have := hc q
    rw [List.flatMap_cons, List.count_append] at this
    omega

theorem front_counts_le (objs : List (List ℚ)) (N L : Nat) (F0 : List Nat)
    (prev : List (List Nat)) (C : List Nat) (st : SortState)
    (inv : LoopInv objs N L F0 prev C st) (q : Nat) :
    (C.flatMap st.dominated).count q ≤ st.dominationCount q := by
  have hCl : ∀ p ∈ C, p < N := fun p hp => inv.lt p (List.mem_append_right _ hp)
  by_cases hq : q < N
  · rw [count_flatMap_dominated objs N st.dominated inv.dom_mem inv.dom_nodup C hCl q hq]
    have h1 := countP_le_range (fun p => Dominates objs p q) N _ inv.nodup inv.lt
    rw [List.countP_append] at h1
    have h2 := inv.cnt q hq
    unfold domCount at h2
    omega
  · rw [List.count_eq_zero_of_not_mem
      (fun h => hq (mem_flatMap_dominated_lt objs N st.dominated inv.dom_mem C hCl q h))]
    exact Nat.zero_le _

theorem processFrontChecked_eq (objs : List (List ℚ)) (N L : Nat) (F0 : List Nat)
    (prev : List (List Nat)) (C : List Nat) (st : SortState)
    (inv : LoopInv objs N L F0 prev C st) :
    processFrontChecked prev.length st = some (processFront prev.length st) := by
  have hget : st.fronts.getD prev.length [] = C := by
    rw [inv.fronts]; simp
  unfold processFrontChecked processFront
  rw [hget]
  exact processFront_checked_fold prev.length C (st, [])
    (fun q => front_counts_le objs N L F0 prev C st inv q)

theorem sortLoopChecked_eq (objs : List (List ℚ)) (N L : Nat) (F0 : List Nat) :
    ∀ (fuel : Nat) (prev : List (List Nat)) (C : List Nat) (st : SortState),
      LoopInv objs N L F0 prev C st →
      sortLoopChecked fuel prev.length st = sortLoop fuel prev.length st := by
  intro fuel
  induction fuel with
  | zero => intro prev C st _; rfl
  | succ fuel ih =>
    intro prev C st inv
    have hget : st.fronts.getD prev.length [] = C := by
      rw [inv.fronts]; simp
    simp only [sortLoopChecked, sortLoop, hget]
    by_cases hC : C = []
    · subst hC
      simp
    · have hne : C.isEmpty = false := by
        cases C with
        | nil => exact absurd rfl hC
        | cons a l => rfl
      rw [hne]
      simp only [Bool.false_eq_true, if_false]
      rw [processFrontChecked_eq objs N L F0 prev C st inv]
      have hstep := loopInv_step objs N L F0 prev C st inv hC
      have := ih (prev ++ [C]) _ _ hstep
      rw [show (prev ++ [C]).length = prev.length + 1 by simp] at this
      exact this

theorem sortLoop_mono (fuel : Nat) :
    ∀ (i : Nat) (st r : SortState), sortLoop fuel i st = some r →
      ∀ fuel', fuel ≤ fuel' → sortLoop fuel' i st = some r := by
  induction fuel with
  | zero =>
    intro i st r h
    simp [sortLoop] at h
  | succ fuel ih =>
    intro i st r h fuel' hle
    obtain ⟨f, rfl⟩ : ∃ f, fuel' = f + 1 := ⟨fuel' - 1, by omega⟩
    simp only [sortLoop] at h ⊢
    split
    · rename_i he
      rw [if_pos he] at h
      exact h
    · rename_i he
      rw [if_neg he] at h
      exact ih _ _ _ h f (by omega)

theorem length_le_length_flatten (fs : List (List Nat)) (h : ∀ f ∈ fs, f ≠ []) :
    fs.length ≤ fs.flatten.length := by
  induction fs with
  | nil => simp
  | cons f fs ih =>
    have hf : 1 ≤ f.length := by
      cases f with
      | nil => exact absurd rfl (h [] (List.mem_cons_self _ _))
      | cons a l => simp
    have := ih (fun g hg => h g (List.mem_cons_of_mem f hg))
    simp only [List.length_cons, List.flatten_cons, List.length_append]
    omega

/-- C22. With fuel for more than `populationSize` loop tests the sort returns, and more fuel
changes nothing; the loop stops at the first empty front (the fronts it holds on exit are the
returned ones followed by one empty front, and no returned front is empty); there are at most
`populationSize` returned fronts; and no counter is decremented below zero (the run with the
guarded decrement gives the same result). -/
theorem FastNonDominatedSort_terminates (calculatedObjectives : List (List ℚ))
    (fuel populationSize : Nat) (ranks : List Nat)
    (hfuel : populationSize < fuel) (hsize : populationSize < SIZE_MOD) :
    ∃ fronts ranksOut st,
      FastNonDominatedSort fuel populationSize ranks calculatedObjectives =
        some (fronts, ranksOut) ∧
      (∀ fuel', fuel ≤ fuel' →
        FastNonDominatedSort fuel' populationSize ranks calculatedObjectives =
          some (fronts, ranksOut)) ∧
      sortLoop fuel 0 (initSort populationSize ranks calculatedObjectives) = some st ∧
      st.fronts = fronts ++ [[]] ∧
      (∀ f ∈ fronts, f ≠ []) ∧
      fronts.length ≤ populationSize ∧
      FastNonDominatedSortChecked fuel populationSize ranks calculatedObjectives =
        some (fronts, ranksOut) := by
  have hinit := loopInv_init calculatedObjectives populationSize hsize ranks
  obtain ⟨st, prev, hrun, inv⟩ := sortLoop_spec calculatedObjectives populationSize
    ranks.length _ fuel [] _ _ hinit (by simp; omega)
  simp only [List.length_nil] at hrun
  have spec := loopInv_exit calculatedObjectives populationSize ranks prev st inv
  have hres : ∀ fuel', fuel ≤ fuel' →
      FastNonDominatedSort fuel' populationSize ranks calculatedObjectives =
        some (prev, st.ranks) := by
    intro fuel' hle
    unfold FastNonDominatedSort
    rw [sortLoop_mono fuel 0 _ st hrun fuel' hle, Option.map_some', inv.fronts,
      List.dropLast_concat]
  refine ⟨prev, st.ranks, st, hres fuel (le_refl _), hres, hrun, inv.fronts, spec.nonempty,
    ?_, ?_⟩
  · exact le_trans (length_le_length_flatten prev spec.nonempty)
      (length_le_of_nodup_lt populationSize prev.flatten spec.nodup
        (fun q hq => (spec.mem q).1 hq))
  · unfold FastNonDominatedSortChecked
    have := sortLoopChecked_eq calculatedObjectives populationSize ranks.length _ fuel [] _ _
      hinit
    simp only [List.length_nil] at this
    rw [this, hrun, Option.map_some', inv.fronts, List.dropLast_concat]

/-- Instance of `FastNonDominatedSort_terminates` on four candidates. -/
theorem FastNonDominatedSort_terminates_witness :
    (4 : Nat) < 5 ∧ 4 < SIZE_MOD ∧
    ∃ fronts ranksOut st,
      FastNonDominatedSort 5 4 [0, 0, 0, 0] [[1, 2], [2, 1], [2, 2], [3, 3]] =
        some (fronts, ranksOut) ∧
      (∀ fuel', 5 ≤ fuel' →
        FastNonDominatedSort fuel' 4 [0, 0, 0, 0] [[1, 2], [2, 1], [2, 2], [3, 3]] =
          some (fronts, ranksOut)) ∧
      sortLoop 5 0 (initSort 4 [0, 0, 0, 0] [[1, 2], [2, 1], [2, 2], [3, 3]]) = some st ∧
      st.fronts = fronts ++ [[]] ∧
      (∀ f ∈ fronts, f ≠ []) ∧
      fronts.length ≤ 4 ∧
      FastNonDominatedSortChecked 5 4 [0, 0, 0, 0] [[1, 2], [2, 1], [2, 2], [3, 3]] =
        some (fronts, ranksOut) :=
  ⟨by decide, by decide,
    FastNonDominatedSort_terminates [[1, 2], [2, 1], [2, 2], [3, 3]] 5 4 [0, 0, 0, 0]
      (by decide) (by decide)⟩

end NSGA3
